import Mathlib

/-!
Verification of the connection substrate of the discord-sb.js repository.

Each section shallowly embeds one component, translated from the JavaScript
source, and proves the properties claimed of it.  JavaScript numbers are
modelled as exact rationals or integers; times are integer milliseconds.
-/

namespace DiscordSB

/-! ### Route builder and bucket key (src/src/rest/APIRouter.js) -/

namespace Router

/-- One pass of the JS regex test `/\d{16,19}/.test(seg)`: since the regex is
unanchored, it succeeds exactly when the string contains 16 consecutive
digits.  `run` is the length of the digit run ending just before the cursor. -/
def digitRunGo : List Char → Nat → Bool
  | [], _ => false
  | c :: rest, run =>
    if c.isDigit then decide (16 ≤ run + 1) || digitRunGo rest (run + 1)
    else digitRunGo rest 0

/-- `idRouteRegex.test(seg)` for `idRouteRegex = /\d{16,19}/`. -/
def testIdRoute (s : String) : Bool :=
  digitRunGo s.data 0

/-- `majorIdRoutes = new Set(['channels', 'guilds', 'webhooks'])`. -/
def majorIdRoutes : List String := ["channels", "guilds", "webhooks"]

/-- The state threaded through the route proxy: textual path, bucket route,
freeze flag and the previously appended segment. -/
structure RouteState where
  path : String
  bucketRoute : String
  bucketFrozen : Bool
  prev : String
deriving Repr, DecidableEq

/-- `appendSegment` from APIRouter.js.  The freeze test, the id-regex test
against the segment and the major-container test against the previous segment
are transcribed verbatim; `nextPath` extends the textual path
unconditionally. -/
def appendSegment (state : RouteState) (seg : String) : RouteState :=
  if state.bucketFrozen || state.prev == "reactions" then
    { path := state.path ++ "/" ++ seg, bucketRoute := state.bucketRoute,
      bucketFrozen := true, prev := seg }
  else
    { path := state.path ++ "/" ++ seg,
      bucketRoute := state.bucketRoute ++ "/" ++
        (if testIdRoute seg && !(majorIdRoutes.contains state.prev) then ":id" else seg),
      bucketFrozen := false, prev := seg }

/-- The initial proxy state `{ path: '', bucketRoute: '', bucketFrozen: false, prev: '' }`. -/
def initRoute : RouteState := ⟨"", "", false, ""⟩

/-- Running a whole chain of segments through the proxy. -/
def buildRouteState (segs : List String) : RouteState :=
  segs.foldl appendSegment initRoute

/-- Modelled from the spec: the claimed substitution of a single segment.  A
segment matching the id regex becomes `:id` unless the immediately preceding
segment is a major container. -/
def specBucketSegment (prev seg : String) : String :=
  if testIdRoute seg && !(majorIdRoutes.contains prev) then ":id" else seg

/-- Modelled from the spec: the claimed bucket-route segment list.  Segments
are transformed with `specBucketSegment`; as soon as a `reactions` segment has
been appended (i.e. it is the predecessor), no later segment is appended. -/
def specBucketSegs : String → List String → List String
  | _, [] => []
  | prev, seg :: rest =>
    if prev == "reactions" then []
    else specBucketSegment prev seg :: specBucketSegs seg rest

/-- Slash-joined concatenation, as both the path and the bucket route use. -/
def joinSlash (l : List String) : String :=
  l.foldl (fun acc s => acc ++ "/" ++ s) ""

/-- Modelled from the spec: the claimed bucket route of a segment chain. -/
def specBucketRoute (segs : List String) : String :=
  joinSlash (specBucketSegs "" segs)

theorem joinSlash_shift (l : List String) (a x : String) :
    l.foldl (fun acc s => acc ++ "/" ++ s) (a ++ x) =
      a ++ l.foldl (fun acc s => acc ++ "/" ++ s) x := by
  induction l generalizing x with
  | nil => rfl
  | cons s rest ih =>
    simp only [List.foldl_cons]
    rw [String.append_assoc, String.append_assoc, ih]
    simp [String.append_assoc]

theorem joinSlash_cons (s : String) (l : List String) :
    joinSlash (s :: l) = "/" ++ s ++ joinSlash l := by
  unfold joinSlash
  simp only [List.foldl_cons]
  have := joinSlash_shift l ("/" ++ s) ""
  simpa using this

theorem foldl_appendSegment_frozen (segs : List String) (p b pr : String) :
    (segs.foldl appendSegment ⟨p, b, true, pr⟩).path = p ++ joinSlash segs ∧
    (segs.foldl appendSegment ⟨p, b, true, pr⟩).bucketRoute = b := by
  induction segs generalizing p pr with
  | nil => simp [joinSlash]
  | cons seg rest ih =>
    simp only [List.foldl_cons, appendSegment, Bool.true_or, if_pos]
    refine ⟨?_, (ih (p ++ "/" ++ seg) seg).2⟩
    rw [(ih (p ++ "/" ++ seg) seg).1, joinSlash_cons]
    simp [String.append_assoc]

theorem foldl_appendSegment_open (segs : List String) (p b pr : String) :
    (segs.foldl appendSegment ⟨p, b, false, pr⟩).path = p ++ joinSlash segs ∧
    (segs.foldl appendSegment ⟨p, b, false, pr⟩).bucketRoute =
      b ++ joinSlash (specBucketSegs pr segs) := by
  induction segs generalizing p b pr with
  | nil => simp [joinSlash, specBucketSegs]
  | cons seg rest ih =>
    by_cases hpr : (pr == "reactions") = true
    · simp only [List.foldl_cons, appendSegment, hpr, Bool.false_or, if_true]
      obtain ⟨hp, hb⟩ := foldl_appendSegment_frozen rest (p ++ "/" ++ seg) b seg
      refine ⟨?_, ?_⟩
      · rw [hp, joinSlash_cons]
        simp [String.append_assoc]
      · rw [hb]
        simp [specBucketSegs, hpr, joinSlash]
    · simp only [List.foldl_cons, appendSegment, hpr, Bool.false_or, Bool.false_eq_true,
        if_false]
      obtain ⟨hp, hb⟩ :=
        ih (p ++ "/" ++ seg)
          (b ++ "/" ++ (if testIdRoute seg && !(majorIdRoutes.contains pr) then ":id" else seg)) seg
      refine ⟨?_, ?_⟩
      · rw [hp, joinSlash_cons]
        simp [String.append_assoc]
      · rw [hb]
        have hspec : specBucketSegs pr (seg :: rest)
            = specBucketSegment pr seg :: specBucketSegs seg rest := by
          simp [specBucketSegs, hpr]
        rw [hspec, joinSlash_cons, specBucketSegment]
        simp [String.append_assoc]

/-- C4: for every chain of segments, the bucket route is exactly the claimed
one — each segment matching the unanchored id regex is replaced by `:id`
unless the preceding segment is a major container, and nothing after a
`reactions` segment is appended to the bucket route — while the textual path
is the plain slash-join of all segments. -/
theorem bucket_route_matches_claim (segs : List String) :
    (buildRouteState segs).path = joinSlash segs ∧
    (buildRouteState segs).bucketRoute = specBucketRoute segs := by
  have h := foldl_appendSegment_open segs "" "" ""
  unfold buildRouteState initRoute specBucketRoute
  constructor
  · rw [h.1]
    simp
  · rw [h.2]
    simp

end Router

/-! ### Rate-limit coordinator (src/src/rest/RateLimitCoordinator.js) and the
invalid-request counter of the request handler (src/src/rest/RESTManager.js).

Header values are modelled as parsed numbers: `none` stands for an absent
header, `some q` for a header that parses to the number `q`.  All clock
values are milliseconds. -/

namespace RateLimit

/-- `getAPIOffset(serverDate)`: the parsed server date minus the client
clock, or `0` when the header is absent. -/
def getAPIOffset (serverDate : Option ℚ) (now : ℚ) : ℚ :=
  match serverDate with
  | none => 0
  | some d => d - now

/-- `calculateReset(reset, resetAfter, serverDate)` from
RateLimitCoordinator.js.  When `reset` is absent, JS evaluates
`Number(null) = 0`, hence the `0 - offset` in the last branch (that branch is
unreachable from `applyHeaders`, which only calls this when one of the two
headers is present). -/
def calculateReset (reset resetAfter serverDate : Option ℚ) (now : ℚ) : ℚ :=
  match resetAfter with
  | some ra => now + ra * 1000
  | none =>
    match reset with
    | some r => r * 1000 - getAPIOffset serverDate now
    | none => 0 - getAPIOffset serverDate now

/-- The `handler.reset` value stored by `applyHeaders` (RateLimitCoordinator.js
lines 85–91): `calculateReset` when either reset header is present, else `now`;
then overridden for reactions routes when `reset-after` is absent and a server
date is present. -/
def applyHeadersReset (routeHasReactions : Bool)
    (reset resetAfter serverDate : Option ℚ) (now : ℚ) : ℚ :=
  let r0 :=
    if reset.isSome || resetAfter.isSome then calculateReset reset resetAfter serverDate now
    else now
  if resetAfter.isNone && serverDate.isSome && routeHasReactions then
    serverDate.getD 0 - getAPIOffset serverDate now + 250
  else r0

/-- The three rate-limit scopes a response can carry. -/
inductive HScope where
  | scGlobal
  | scShared
  | scUser
deriving Repr, DecidableEq

/-- `getRateLimitScope(headers, bodyGlobal)`: parse the lowercased
`x-ratelimit-scope` header, falling back to `global` when the body said so. -/
def getRateLimitScope (scopeHeader : Option String) (bodyGlobal : Bool) : Option HScope :=
  let s := (scopeHeader.getD "").toLower
  if s = "global" then some .scGlobal
  else if s = "shared" then some .scShared
  else if s = "user" then some .scUser
  else if bodyGlobal then some .scGlobal
  else none

/-- `isSharedScope(headers)`. -/
def isSharedScope (scopeHeader : Option String) : Bool :=
  getRateLimitScope scopeHeader false = some .scShared

/-- The process-wide invalid-request counter of RequestHandler. -/
structure InvalidCounter where
  invalidCount : ℕ
  invalidCountResetTime : Option ℕ
deriving Repr, DecidableEq

/-- The count the window-rollover logic restarts from: `0` when the stored
reset time is absent or already past, the running count otherwise. -/
def rolledCount (st : InvalidCounter) (now : ℕ) : ℕ :=
  match st.invalidCountResetTime with
  | none => 0
  | some t => if t < now then 0 else st.invalidCount

/-- The rollover-and-increment performed inside the non-shared branch. -/
def countInvalidStep (st : InvalidCounter) (now : ℕ) : InvalidCounter :=
  let rt :=
    match st.invalidCountResetTime with
    | none => now + 1000 * 60 * 10
    | some t => if t < now then now + 1000 * 60 * 10 else t
  { invalidCount := rolledCount st now + 1, invalidCountResetTime := some rt }

/-- The circuit-breaker sleep chosen after the increment. -/
def breakerDelay (count : ℕ) : ℕ :=
  if 9000 ≤ count then 5000
  else if 5000 ≤ count then 1500
  else if 2500 ≤ count then 500
  else 0

/-- The invalid-request block of `RequestHandler.execute` (RESTManager.js
lines 586–630): statuses 401, 403 and 429 are candidates; a 429 whose scope is
`shared` is skipped entirely; every other candidate rolls the window, bumps
the counter and computes the breaker sleep.  Returns the new counter state and
the breaker sleep in milliseconds. -/
def invalidRequestStep (status : ℕ) (scopeHeader : Option String)
    (st : InvalidCounter) (now : ℕ) : InvalidCounter × ℕ :=
  if status = 401 ∨ status = 403 ∨ status = 429 then
    if status = 429 && isSharedScope scopeHeader then (st, 0)
    else
      let st' := countInvalidStep st now
      (st', breakerDelay st'.invalidCount)
  else (st, 0)

/-- C5: a 429 whose rate-limit scope is `shared` leaves the invalid-request
counter untouched and applies no circuit-breaker sleep, while every 401, 403
and non-shared 429 increments the counter (from its post-rollover base). -/
theorem shared_429_not_counted (status : ℕ) (scopeHeader : Option String)
    (st : InvalidCounter) (now : ℕ) :
    (status = 429 ∧ isSharedScope scopeHeader = true →
      invalidRequestStep status scopeHeader st now = (st, 0)) ∧
    ((status = 401 ∨ status = 403 ∨ (status = 429 ∧ isSharedScope scopeHeader = false)) →
      (invalidRequestStep status scopeHeader st now).1.invalidCount =
        rolledCount st now + 1) := by
  constructor
  · rintro ⟨h429, hshared⟩
    subst h429
    simp [invalidRequestStep, hshared]
  · rintro (h | h | ⟨h, hn⟩) <;> subst h <;>
      simp [invalidRequestStep, countInvalidStep, *]

/-- C6 (counterexample): with `reset = 3000` s, a server date of
`2 000 000` ms and a client clock of `1 000 000` ms on a reactions route,
the code stores `1 000 250` (client now + 250 ms), not the skew-corrected
reset plus 250 ms, which would be `3000·1000 − (2 000 000 − 1 000 000) + 250
= 2 000 250`. -/
theorem reactions_reset_ignores_reset_header :
    applyHeadersReset true (some 3000) none (some 2000000) 1000000 = 1000250 ∧
    (3000 : ℚ) * 1000 - getAPIOffset (some 2000000) 1000000 + 250 = 2000250 ∧
    (1000250 : ℚ) ≠ 2000250 := by
  refine ⟨?_, ?_, by norm_num⟩
  · norm_num [applyHeadersReset, calculateReset, getAPIOffset]
  · norm_num [getAPIOffset]

/-- C6 (amended): with `reset-after` present the stored reset is
`now + reset_after·1000`; otherwise, off reactions routes (or without a server
date) it is the skew-corrected `reset·1000`; and on reactions routes with a
server date present but `reset-after` absent it is `now + 250` — the
server-date term cancels against the skew offset, so the `reset` header is
ignored there. -/
theorem reset_computation (reactions : Bool) (reset serverDate : Option ℚ) (now : ℚ) :
    (∀ ra : ℚ, applyHeadersReset reactions reset (some ra) serverDate now = now + ra * 1000) ∧
    (∀ r : ℚ, reset = some r → (serverDate.isSome && reactions) = false →
      applyHeadersReset reactions reset none serverDate now =
        r * 1000 - getAPIOffset serverDate now) ∧
    (∀ d : ℚ, serverDate = some d → reactions = true →
      applyHeadersReset reactions reset none serverDate now = now + 250) := by
  refine ⟨?_, ?_, ?_⟩
  · intro ra
    simp [applyHeadersReset, calculateReset]
  · intro r hr hsd
    subst hr
    rcases reactions with _ | _ <;> rcases serverDate with _ | d <;>
      simp_all [applyHeadersReset, calculateReset]
  · intro d hd hre
    subst hd hre
    simp [applyHeadersReset, calculateReset, getAPIOffset]

end RateLimit

/-! ### Gateway send scheduler (src/examples/AuthorizeUserApps.js,
`GatewaySendScheduler`).

Tokens are exact rationals (JS uses doubles); clock values are natural-number
milliseconds.  Within the scheduler the important queue only ever receives
`unshift` and the normal queue only ever receives `push`, so they are
faithfully specialised to a cons stack and a FIFO list respectively (the full
`FastQueue` is verified separately below). -/

namespace Scheduler

/-- One frame dispatch, instrumented with the scheduler clock and the token
count around the `this._tokens -= 1` decrement. -/
structure Dispatch where
  time : ℕ
  frame : ℕ
  tokensBefore : ℚ
  tokensAfter : ℚ
deriving Repr, DecidableEq

/-- The mutable state of `GatewaySendScheduler`. -/
structure SchedState where
  capacity : ℕ
  windowMs : ℕ
  importantBurst : ℕ
  tokens : ℚ
  lastRefill : ℕ
  timer : Option ℕ
  importantStreak : ℕ
  importantQueue : List ℕ
  normalQueue : List ℕ
deriving Repr, DecidableEq

/-- `get length()`. -/
def qlen (s : SchedState) : ℕ :=
  s.importantQueue.length + s.normalQueue.length

/-- `capacity / windowMs`, the refill rate per millisecond. -/
def rate (s : SchedState) : ℚ :=
  (s.capacity : ℚ) / (s.windowMs : ℚ)

/-- `_refill(now)`. -/
def refill (s : SchedState) (now : ℕ) : SchedState :=
  if now ≤ s.lastRefill then s
  else
    let amt := ((now : ℚ) - (s.lastRefill : ℚ)) * rate s
    if amt ≤ 0 then { s with lastRefill := now }
    else { s with lastRefill := now, tokens := min ((s.capacity : ℚ)) (s.tokens + amt) }

/-- `_dequeue()`: prefer the important queue while the streak is below the
burst allowance or no normal frame is pending; otherwise serve a normal frame
and reset the streak. -/
def dequeueFrame (s : SchedState) : Option ℕ × SchedState :=
  if s.importantQueue.isEmpty && s.normalQueue.isEmpty then (none, s)
  else if !s.importantQueue.isEmpty &&
      (s.normalQueue.isEmpty || decide (s.importantStreak < s.importantBurst)) then
    match s.importantQueue with
    | f :: rest =>
      (some f, { s with importantQueue := rest, importantStreak := s.importantStreak + 1 })
    | [] => (none, s)
  else
    match s.normalQueue with
    | n :: rest => (some n, { s with normalQueue := rest, importantStreak := 0 })
    | [] => (none, s)

/-- The `while (this._tokens >= 1 && this.length > 0)` dispatch loop of
`process()`; the fuel is the queue length, which bounds the iteration count. -/
def processLoop : ℕ → SchedState → ℕ → SchedState × List Dispatch
  | 0, s, _ => (s, [])
  | Nat.succ fuel, s, now =>
    if 1 ≤ s.tokens ∧ 0 < qlen s then
      match dequeueFrame s with
      | (none, s1) => (s1, [])
      | (some f, s1) =>
        let s2 := { s1 with tokens := s1.tokens - 1 }
        let rest := processLoop fuel s2 now
        (rest.1, ⟨now, f, s1.tokens, s1.tokens - 1⟩ :: rest.2)
    else (s, [])

/-- `_schedule()`: arm a single wakeup timer `ceil((1 - tokens)/rate)` ms out
(at least 1 ms); idempotent when a timer is already armed. -/
def schedule (s : SchedState) (now : ℕ) : SchedState :=
  match s.timer with
  | some _ => s
  | none =>
    let missing : ℚ := max (1 - s.tokens) 0
    let delay : ℕ := max (Int.toNat (Int.ceil (missing / rate s))) 1
    { s with timer := some (now + delay) }

/-- `process()`: refill, dispatch while tokens last, then either arm the
wakeup (work remains) or cancel it (queues drained). -/
def process (s : SchedState) (now : ℕ) : SchedState × List Dispatch :=
  let s1 := refill s now
  let r := processLoop (qlen s1) s1 now
  (if 0 < qlen r.1 then schedule r.1 now else { r.1 with timer := none }, r.2)

/-- `enqueue(data, important)`: important frames go to the front of the
important queue, normal frames to the back of the normal queue; then process. -/
def enqueue (s : SchedState) (f : ℕ) (important : Bool) (now : ℕ) :
    SchedState × List Dispatch :=
  if important then process { s with importantQueue := f :: s.importantQueue } now
  else process { s with normalQueue := s.normalQueue ++ [f] } now

/-- `clear()`. -/
def clearSched (s : SchedState) (now : ℕ) : SchedState :=
  { s with
    timer := none, importantQueue := [], normalQueue := [],
    tokens := (s.capacity : ℚ), lastRefill := now, importantStreak := 0 }

/-- The events that drive the scheduler. -/
inductive SchedEv where
  | enq (f : ℕ) (important : Bool)
  | proc
  | fire
  | clearQ
deriving Repr, DecidableEq

/-- An event stamped with the clock value at which it occurs. -/
structure TimedEv where
  time : ℕ
  ev : SchedEv
deriving Repr, DecidableEq

/-- One event step.  A `fire` runs the timer callback (null the timer, then
`process`) and is a no-op unless an armed timer is due. -/
def stepEv (s : SchedState) (e : TimedEv) : SchedState × List Dispatch :=
  match e.ev with
  | .enq f imp => enqueue s f imp e.time
  | .proc => process s e.time
  | .fire =>
    match s.timer with
    | some d => if d ≤ e.time then process { s with timer := none } e.time else (s, [])
    | none => (s, [])
  | .clearQ => (clearSched s e.time, [])

/-- Run a whole event trace, accumulating the dispatch log. -/
def runEvs (s : SchedState) : List TimedEv → SchedState × List Dispatch
  | [] => (s, [])
  | e :: rest =>
    let r1 := stepEv s e
    let r2 := runEvs r1.1 rest
    (r2.1, r1.2 ++ r2.2)

/-- The constructor state: full bucket, no timer, empty queues, clock origin 0. -/
def initSched (c w burst : ℕ) : SchedState :=
  ⟨c, w, burst, (c : ℚ), 0, none, 0, [], []⟩

/-- How many dispatches of a log fall in the half-open window [t0, t0 + w). -/
def dispatchesWithin (t0 w : ℕ) (ds : List Dispatch) : ℕ :=
  ds.countP fun d => decide (t0 ≤ d.time ∧ d.time < t0 + w)

theorem rate_nonneg (s : SchedState) : 0 ≤ rate s := by
  unfold rate
  positivity

theorem dequeueFrame_fields (s : SchedState) :
    (dequeueFrame s).2.capacity = s.capacity ∧
    (dequeueFrame s).2.windowMs = s.windowMs ∧
    (dequeueFrame s).2.tokens = s.tokens ∧
    (dequeueFrame s).2.lastRefill = s.lastRefill ∧
    (dequeueFrame s).2.timer = s.timer := by
  unfold dequeueFrame
  split
  · simp
  · split
    · split <;> simp
    · split <;> simp

theorem processLoop_spec (now : ℕ) : ∀ (fuel : ℕ) (s : SchedState),
    ((processLoop fuel s now).1.capacity = s.capacity ∧
     (processLoop fuel s now).1.windowMs = s.windowMs ∧
     (processLoop fuel s now).1.lastRefill = s.lastRefill ∧
     (processLoop fuel s now).1.timer = s.timer) ∧
    (processLoop fuel s now).1.tokens = s.tokens - ((processLoop fuel s now).2.length : ℚ) ∧
    (0 ≤ s.tokens → 0 ≤ (processLoop fuel s now).1.tokens) ∧
    (∀ d ∈ (processLoop fuel s now).2,
      d.time = now ∧ 1 ≤ d.tokensBefore ∧ d.tokensAfter = d.tokensBefore - 1) := by
  intro fuel
  induction fuel with
  | zero =>
    intro s
    simp [processLoop]
  | succ fuel ih =>
    intro s
    unfold processLoop
    split
    · rename_i hcond
      rcases hq : dequeueFrame s with ⟨fo, s1⟩
      obtain ⟨hc1, hw1, ht1, hl1, hti1⟩ := dequeueFrame_fields s
      rw [hq] at hc1 hw1 ht1 hl1 hti1
      simp only [] at hc1 hw1 ht1 hl1 hti1
      cases fo with
      | none =>
        simp only [hq, List.length_nil, Nat.cast_zero, sub_zero, List.not_mem_nil,
          false_implies, implies_true, and_true]
        exact ⟨⟨hc1, hw1, hl1, hti1⟩, ht1, fun h => ht1 ▸ h⟩
      | some f =>
        obtain ⟨⟨ihc, ihw, ihl, ihti⟩, ihtok, ihpos, ihd⟩ :=
          ih { s1 with tokens := s1.tokens - 1 }
        simp only [hq]
        refine ⟨⟨ihc.trans hc1, ihw.trans hw1, ihl.trans hl1, ihti.trans hti1⟩, ?_, ?_, ?_⟩
        · rw [ihtok]
          simp only [List.length_cons, ht1]
          push_cast
          ring
        · intro h0
          apply ihpos
          simp only [ht1]
          linarith [hcond.1]
        · intro d hd
          rcases List.mem_cons.mp hd with hd | hd
          · subst hd
            exact ⟨rfl, by simp only [ht1]; exact hcond.1, rfl⟩
          · exact ihd d hd
    · simp

theorem refill_fields (s : SchedState) (now : ℕ) :
    (refill s now).capacity = s.capacity ∧ (refill s now).windowMs = s.windowMs ∧
    (refill s now).timer = s.timer ∧ (refill s now).importantQueue = s.importantQueue ∧
    (refill s now).normalQueue = s.normalQueue := by
  unfold refill
  by_cases h1 : now ≤ s.lastRefill
  · simp [h1]
  · by_cases h2 : ((now : ℚ) - (s.lastRefill : ℚ)) * rate s ≤ 0 <;> simp [h1, h2]

theorem refill_tokens_nonneg (s : SchedState) (now : ℕ) (h0 : 0 ≤ s.tokens) :
    0 ≤ (refill s now).tokens := by
  unfold refill
  by_cases h1 : now ≤ s.lastRefill
  · simpa [h1] using h0
  · by_cases h2 : ((now : ℚ) - (s.lastRefill : ℚ)) * rate s ≤ 0
    · simpa [h1, h2] using h0
    · simp [h1, h2]
      nlinarith [not_le.mp h2]

theorem refill_tokens_le_cap (s : SchedState) (now : ℕ) (hC : s.tokens ≤ (s.capacity : ℚ)) :
    (refill s now).tokens ≤ (s.capacity : ℚ) := by
  unfold refill
  by_cases h1 : now ≤ s.lastRefill
  · simpa [h1] using hC
  · by_cases h2 : ((now : ℚ) - (s.lastRefill : ℚ)) * rate s ≤ 0 <;> simp [h1, h2, hC]

theorem refill_tokens_le_linear (s : SchedState) (now : ℕ) (hlr : s.lastRefill ≤ now) :
    (refill s now).tokens ≤ s.tokens + rate s * ((now : ℚ) - (s.lastRefill : ℚ)) := by
  have hr : 0 ≤ rate s := rate_nonneg s
  have hq : (s.lastRefill : ℚ) ≤ (now : ℚ) := by exact_mod_cast hlr
  have hamt : 0 ≤ ((now : ℚ) - (s.lastRefill : ℚ)) * rate s :=
    mul_nonneg (sub_nonneg.mpr hq) hr
  unfold refill
  by_cases h1 : now ≤ s.lastRefill
  · simp only [h1, if_true]
    nlinarith
  · by_cases h2 : ((now : ℚ) - (s.lastRefill : ℚ)) * rate s ≤ 0
    · have h0 : ((now : ℚ) - (s.lastRefill : ℚ)) * rate s = 0 := le_antisymm h2 hamt
      simp [h1, h2, h0]
      rw [mul_comm]
      exact hamt
    · simp [h1, h2]
      right
      rw [mul_comm]

theorem refill_lastRefill (s : SchedState) (now : ℕ) (hlr : s.lastRefill ≤ now) :
    (refill s now).lastRefill = now := by
  unfold refill
  by_cases h1 : now ≤ s.lastRefill
  · simp only [h1, if_true]
    omega
  · by_cases h2 : ((now : ℚ) - (s.lastRefill : ℚ)) * rate s ≤ 0 <;> simp [h1, h2]

theorem schedule_fields (s : SchedState) (now : ℕ) :
    (schedule s now).capacity = s.capacity ∧ (schedule s now).windowMs = s.windowMs ∧
    (schedule s now).tokens = s.tokens ∧ (schedule s now).lastRefill = s.lastRefill ∧
    (schedule s now).importantQueue = s.importantQueue ∧
    (schedule s now).normalQueue = s.normalQueue := by
  unfold schedule
  cases s.timer <;> simp

theorem schedule_isSome (s : SchedState) (now : ℕ) :
    ((schedule s now).timer).isSome = true := by
  unfold schedule
  cases h : s.timer <;> simp [h]

theorem qlen_schedule (s : SchedState) (now : ℕ) : qlen (schedule s now) = qlen s := by
  obtain ⟨-, -, -, -, hi, hn⟩ := schedule_fields s now
  unfold qlen
  rw [hi, hn]

theorem qlen_timer_irrelevant (s : SchedState) (t : Option ℕ) :
    qlen { s with timer := t } = qlen s := rfl

theorem process_inv (s : SchedState) (now : ℕ)
    (h0 : 0 ≤ s.tokens) (hC : s.tokens ≤ (s.capacity : ℚ)) :
    (process s now).1.capacity = s.capacity ∧
    (process s now).1.windowMs = s.windowMs ∧
    0 ≤ (process s now).1.tokens ∧
    (process s now).1.tokens ≤ (s.capacity : ℚ) ∧
    (0 < qlen (process s now).1 → ((process s now).1.timer).isSome = true) ∧
    (∀ d ∈ (process s now).2,
      d.time = now ∧ 1 ≤ d.tokensBefore ∧ d.tokensAfter = d.tokensBefore - 1) := by
  obtain ⟨hc1, hw1, ht1, hi1, hn1⟩ := refill_fields s now
  have h01 : 0 ≤ (refill s now).tokens := refill_tokens_nonneg s now h0
  have hC1 : (refill s now).tokens ≤ (s.capacity : ℚ) := refill_tokens_le_cap s now hC
  obtain ⟨⟨lc, lw, ll, lt⟩, ltok, lpos, ld⟩ :=
    processLoop_spec now (qlen (refill s now)) (refill s now)
  have hlen : (0 : ℚ) ≤ ((processLoop (qlen (refill s now)) (refill s now) now).2.length : ℚ) := by
    positivity
  unfold process
  by_cases hq : 0 < qlen (processLoop (qlen (refill s now)) (refill s now) now).1
  · obtain ⟨sc, sw, st, sl, si, sn⟩ :=
      schedule_fields (processLoop (qlen (refill s now)) (refill s now) now).1 now
    simp only [hq, if_true]
    refine ⟨sc.trans (lc.trans hc1), sw.trans (lw.trans hw1), ?_, ?_, ?_, ld⟩
    · rw [st]
      exact lpos h01
    · rw [st, ltok]
      linarith
    · intro _
      exact schedule_isSome _ now
  · simp only [hq, if_false]
    refine ⟨lc.trans hc1, lw.trans hw1, lpos h01, ?_, ?_, ld⟩
    · rw [ltok]
      linarith
    · intro hcon
      rw [qlen_timer_irrelevant] at hcon
      exact absurd hcon hq

theorem process_pacing (s : SchedState) (now : ℕ)
    (hC : s.tokens ≤ (s.capacity : ℚ)) (hlr : s.lastRefill ≤ now) :
    (process s now).1.lastRefill = now ∧
    (((process s now).2.length : ℚ) + (process s now).1.tokens ≤ (s.capacity : ℚ)) ∧
    (((process s now).2.length : ℚ) + (process s now).1.tokens
       ≤ s.tokens + rate s * ((now : ℚ) - (s.lastRefill : ℚ))) := by
  have hC1 : (refill s now).tokens ≤ (s.capacity : ℚ) := refill_tokens_le_cap s now hC
  have hlin : (refill s now).tokens ≤ s.tokens + rate s * ((now : ℚ) - (s.lastRefill : ℚ)) :=
    refill_tokens_le_linear s now hlr
  have hnow : (refill s now).lastRefill = now := refill_lastRefill s now hlr
  obtain ⟨⟨lc, lw, ll, lt⟩, ltok, lpos, ld⟩ :=
    processLoop_spec now (qlen (refill s now)) (refill s now)
  unfold process
  by_cases hq : 0 < qlen (processLoop (qlen (refill s now)) (refill s now) now).1
  · obtain ⟨sc, sw, st, sl, si, sn⟩ :=
      schedule_fields (processLoop (qlen (refill s now)) (refill s now) now).1 now
    simp only [hq, if_true]
    refine ⟨sl.trans (ll.trans hnow), ?_, ?_⟩
    · rw [st, ltok]
      linarith
    · rw [st, ltok]
      linarith
  · simp only [hq, if_false]
    refine ⟨ll.trans hnow, ?_, ?_⟩
    · rw [ltok]
      linarith
    · rw [ltok]
      linarith

theorem stepEv_inv (s : SchedState) (e : TimedEv)
    (h0 : 0 ≤ s.tokens) (hC : s.tokens ≤ (s.capacity : ℚ))
    (ht : 0 < qlen s → (s.timer).isSome = true) :
    (stepEv s e).1.capacity = s.capacity ∧
    (stepEv s e).1.windowMs = s.windowMs ∧
    0 ≤ (stepEv s e).1.tokens ∧ (stepEv s e).1.tokens ≤ (s.capacity : ℚ) ∧
    (0 < qlen (stepEv s e).1 → ((stepEv s e).1.timer).isSome = true) ∧
    (∀ d ∈ (stepEv s e).2, d.time = e.time ∧ 1 ≤ d.tokensBefore ∧
      d.tokensAfter = d.tokensBefore - 1) := by
  rcases e with ⟨u, ev⟩
  cases ev with
  | enq f imp =>
    cases imp with
    | false => exact process_inv { s with normalQueue := s.normalQueue ++ [f] } u h0 hC
    | true => exact process_inv { s with importantQueue := f :: s.importantQueue } u h0 hC
  | proc => exact process_inv s u h0 hC
  | fire =>
    cases htm : s.timer with
    | none =>
      have hstep : stepEv s ⟨u, SchedEv.fire⟩ = (s, []) := by
        simp [stepEv, htm]
      rw [hstep]
      exact ⟨rfl, rfl, h0, hC, ht, by simp⟩
    | some d =>
      by_cases hdu : d ≤ u
      · have hstep : stepEv s ⟨u, SchedEv.fire⟩ = process { s with timer := none } u := by
          simp [stepEv, htm, hdu]
        rw [hstep]
        exact process_inv { s with timer := none } u h0 hC
      · have hstep : stepEv s ⟨u, SchedEv.fire⟩ = (s, []) := by
          simp [stepEv, htm, hdu]
        rw [hstep]
        exact ⟨rfl, rfl, h0, hC, ht, by simp⟩
  | clearQ =>
    have hstep : stepEv s ⟨u, SchedEv.clearQ⟩ = (clearSched s u, []) := rfl
    rw [hstep]
    refine ⟨rfl, rfl, by simp [clearSched], le_refl _, ?_, by simp⟩
    intro h
    simp [clearSched, qlen] at h

theorem runEvs_inv (evs : List TimedEv) : ∀ (s : SchedState),
    0 ≤ s.tokens → s.tokens ≤ (s.capacity : ℚ) → (0 < qlen s → (s.timer).isSome = true) →
    (runEvs s evs).1.capacity = s.capacity ∧
    (runEvs s evs).1.windowMs = s.windowMs ∧
    0 ≤ (runEvs s evs).1.tokens ∧ (runEvs s evs).1.tokens ≤ (s.capacity : ℚ) ∧
    (0 < qlen (runEvs s evs).1 → ((runEvs s evs).1.timer).isSome = true) ∧
    (∀ d ∈ (runEvs s evs).2, (∃ e ∈ evs, d.time = e.time) ∧ 1 ≤ d.tokensBefore ∧
      d.tokensAfter = d.tokensBefore - 1) := by
  induction evs with
  | nil =>
    intro s h0 hC ht
    exact ⟨rfl, rfl, h0, hC, ht, by simp [runEvs]⟩
  | cons e rest ih =>
    intro s h0 hC ht
    obtain ⟨sc, sw, s0, sC, st, sd⟩ := stepEv_inv s e h0 hC ht
    obtain ⟨rc, rw, r0, rC, rt, rd⟩ := ih (stepEv s e).1 s0 (sC.trans_eq (by rw [sc])) st
    rw [sc] at rC
    refine ⟨rc.trans sc, rw.trans sw, r0, rC, rt, ?_⟩
    intro d hd
    show _ ∧ _
    rcases List.mem_append.mp hd with hd | hd
    · obtain ⟨hdt, hb, ha⟩ := sd d hd
      exact ⟨⟨e, List.mem_cons_self _ _, hdt⟩, hb, ha⟩
    · obtain ⟨⟨e2, he2, hdt⟩, hb, ha⟩ := rd d hd
      exact ⟨⟨e2, List.mem_cons_of_mem _ he2, hdt⟩, hb, ha⟩

/-- C7: after any sequence of scheduler operations (enqueue, process, clear,
timer fire), the token count satisfies `0 ≤ tokens ≤ capacity`; every recorded
dispatch happened with at least one token and decremented the count by exactly
one; and whenever frames remain queued while `tokens < 1`, the single wakeup
timer slot is armed (the state holds at most one timer by construction, so an
armed slot is exactly one timer). -/
theorem scheduler_invariants (c w burst : ℕ) (evs : List TimedEv) :
    0 ≤ (runEvs (initSched c w burst) evs).1.tokens ∧
    (runEvs (initSched c w burst) evs).1.tokens
      ≤ ((runEvs (initSched c w burst) evs).1.capacity : ℚ) ∧
    (((runEvs (initSched c w burst) evs).1.tokens < 1 ∧
        0 < qlen (runEvs (initSched c w burst) evs).1) →
      (((runEvs (initSched c w burst) evs).1.timer).isSome = true)) ∧
    (∀ d ∈ (runEvs (initSched c w burst) evs).2,
      1 ≤ d.tokensBefore ∧ d.tokensAfter = d.tokensBefore - 1) := by
  obtain ⟨rc, rw, r0, rC, rt, rd⟩ :=
    runEvs_inv evs (initSched c w burst) (by simp [initSched]) (by simp [initSched])
      (by simp [initSched, qlen])
  refine ⟨r0, ?_, fun h => rt h.2, fun d hd => ((rd d hd).2)⟩
  rw [rc]
  simpa [initSched] using rC

theorem runEvs_cons (s : SchedState) (e : TimedEv) (rest : List TimedEv) :
    runEvs s (e :: rest) =
      ((runEvs (stepEv s e).1 rest).1, (stepEv s e).2 ++ (runEvs (stepEv s e).1 rest).2) := rfl

theorem runEvs_append (a b : List TimedEv) : ∀ s : SchedState,
    runEvs s (a ++ b) =
      ((runEvs (runEvs s a).1 b).1, (runEvs s a).2 ++ (runEvs (runEvs s a).1 b).2) := by
  induction a with
  | nil => intro s; simp [runEvs]
  | cons e rest ih =>
    intro s
    rw [List.cons_append, runEvs_cons, runEvs_cons, ih]
    simp [List.append_assoc]

theorem dispatchesWithin_append (t0 w : ℕ) (a b : List Dispatch) :
    dispatchesWithin t0 w (a ++ b) = dispatchesWithin t0 w a + dispatchesWithin t0 w b := by
  unfold dispatchesWithin
  exact List.countP_append _ _ _

theorem dispatchesWithin_const_time (t0 w u : ℕ) (ds : List Dispatch)
    (h : ∀ d ∈ ds, d.time = u) :
    dispatchesWithin t0 w ds = if t0 ≤ u ∧ u < t0 + w then ds.length else 0 := by
  unfold dispatchesWithin
  by_cases hc : t0 ≤ u ∧ u < t0 + w
  · rw [if_pos hc]
    apply List.countP_eq_length.mpr
    intro d hd
    simp [h d hd, hc.1, hc.2]
  · rw [if_neg hc]
    apply List.countP_eq_zero.mpr
    intro d hd
    simp only [h d hd, decide_eq_true_eq]
    exact hc

theorem dispatchesWithin_zero_of_late (t0 w : ℕ) (ds : List Dispatch)
    (h : ∀ d ∈ ds, t0 + w ≤ d.time) :
    dispatchesWithin t0 w ds = 0 := by
  unfold dispatchesWithin
  apply List.countP_eq_zero.mpr
  intro d hd
  simp only [decide_eq_true_eq, not_and, not_lt]
  intro _
  exact h d hd

theorem dropWhile_time_ge (k : ℕ) : ∀ (evs : List TimedEv),
    List.Pairwise (fun a b => a.time ≤ b.time) evs →
    ∀ e ∈ evs.dropWhile (fun x => decide (x.time < k)), k ≤ e.time := by
  intro evs
  induction evs with
  | nil => intro _ e he; simp [List.dropWhile] at he
  | cons a rest ih =>
    intro hp e he
    rw [List.dropWhile] at he
    by_cases ha : a.time < k
    · simp only [ha, decide_eq_true_eq, if_pos] at he
      exact ih hp.of_cons e (by simpa using he)
    · simp only [ha, decide_eq_true_eq, if_neg] at he
      rcases List.mem_cons.mp (by simpa using he) with rfl | hmem
      · omega
      · have := List.rel_of_pairwise_cons hp hmem
        omega

theorem stepEv_pacing (s : SchedState) (e : TimedEv)
    (hC : s.tokens ≤ (s.capacity : ℚ)) (hlr : s.lastRefill ≤ e.time)
    (hne : e.ev ≠ SchedEv.clearQ) :
    stepEv s e = (s, []) ∨
    ((stepEv s e).1.lastRefill = e.time ∧
     (((stepEv s e).2.length : ℚ) + (stepEv s e).1.tokens ≤ (s.capacity : ℚ)) ∧
     (((stepEv s e).2.length : ℚ) + (stepEv s e).1.tokens
        ≤ s.tokens + rate s * ((e.time : ℚ) - (s.lastRefill : ℚ)))) := by
  rcases e with ⟨u, ev⟩
  cases ev with
  | enq f imp =>
    right
    cases imp with
    | false => exact process_pacing { s with normalQueue := s.normalQueue ++ [f] } u hC hlr
    | true => exact process_pacing { s with importantQueue := f :: s.importantQueue } u hC hlr
  | proc =>
    right
    exact process_pacing s u hC hlr
  | fire =>
    cases htm : s.timer with
    | none =>
      left
      simp [stepEv, htm]
    | some d =>
      by_cases hdu : d ≤ u
      · right
        have hstep : stepEv s ⟨u, SchedEv.fire⟩ = process { s with timer := none } u := by
          simp [stepEv, htm, hdu]
        rw [hstep]
        exact process_pacing { s with timer := none } u hC hlr
      · left
        simp [stepEv, htm, hdu]
  | clearQ => exact absurd rfl hne

theorem window_bound_aux (t0 w c : ℕ) (hw : 0 < w) :
    ∀ (evs : List TimedEv) (s : SchedState) (n : ℕ),
    s.capacity = c → s.windowMs = w →
    0 ≤ s.tokens → s.tokens ≤ (c : ℚ) →
    (0 < qlen s → (s.timer).isSome = true) →
    s.lastRefill < t0 + w →
    (∀ e ∈ evs, s.lastRefill ≤ e.time) →
    List.Pairwise (fun a b => a.time ≤ b.time) evs →
    (∀ e ∈ evs, e.time < t0 + w) →
    (∀ e ∈ evs, e.ev ≠ SchedEv.clearQ) →
    (n = 0 ∨ (t0 ≤ s.lastRefill ∧
      (n : ℚ) + s.tokens ≤ (c : ℚ) + ((c : ℚ) / (w : ℚ)) * ((s.lastRefill : ℚ) - (t0 : ℚ)))) →
    n + dispatchesWithin t0 w (runEvs s evs).2 ≤ 2 * c := by
  intro evs
  induction evs with
  | nil =>
    intro s n hcap hwin h0 hC ht hlt hle hpair hwnd hnc hinv
    have hdw : dispatchesWithin t0 w (runEvs s []).2 = 0 := by
      simp [runEvs, dispatchesWithin]
    rw [hdw]
    rcases hinv with h | ⟨hge, hsum⟩
    · omega
    · have h1 : ((s.lastRefill : ℚ) - (t0 : ℚ)) ≤ (w : ℚ) := by
        have h2 : (s.lastRefill : ℚ) ≤ ((t0 : ℚ) + (w : ℚ)) := by
          have := le_of_lt hlt
          exact_mod_cast this
        linarith
      have hrpos : (0 : ℚ) ≤ (c : ℚ) / (w : ℚ) := by positivity
      have hrw : ((c : ℚ) / (w : ℚ)) * ((s.lastRefill : ℚ) - (t0 : ℚ))
          ≤ ((c : ℚ) / (w : ℚ)) * (w : ℚ) := mul_le_mul_of_nonneg_left h1 hrpos
      have hwne : ((w : ℚ)) ≠ 0 := by
        exact_mod_cast Nat.pos_iff_ne_zero.mp hw
      have hcw : ((c : ℚ) / (w : ℚ)) * (w : ℚ) = (c : ℚ) := div_mul_cancel₀ _ hwne
      have hn : (n : ℚ) ≤ 2 * (c : ℚ) := by linarith
      have hfin : ((n : ℚ)) ≤ ((2 * c : ℕ) : ℚ) := by push_cast; linarith
      have hfin2 : n ≤ 2 * c := by exact_mod_cast hfin
      omega
  | cons e rest ih =>
    intro s n hcap hwin h0 hC ht hlt hle hpair hwnd hnc hinv
    have hCs : s.tokens ≤ (s.capacity : ℚ) := by rw [hcap]; exact hC
    obtain ⟨sc, sw, s0', sC', st', sd⟩ := stepEv_inv s e h0 hCs ht
    have hlr_e : s.lastRefill ≤ e.time := hle e (List.mem_cons_self _ _)
    have hew : e.time < t0 + w := hwnd e (List.mem_cons_self _ _)
    have henc : e.ev ≠ SchedEv.clearQ := hnc e (List.mem_cons_self _ _)
    rcases stepEv_pacing s e hCs hlr_e henc with hnoop | ⟨hlr2, hcap2, hlin2⟩
    · rw [runEvs_cons, hnoop]
      simp only [List.nil_append]
      exact ih s n hcap hwin h0 hC ht hlt
        (fun e2 he2 => le_trans hlr_e (List.rel_of_pairwise_cons hpair he2))
        hpair.of_cons (fun e2 he2 => hwnd e2 (List.mem_cons_of_mem _ he2))
        (fun e2 he2 => hnc e2 (List.mem_cons_of_mem _ he2)) hinv
    · rw [runEvs_cons]
      rw [dispatchesWithin_append]
      have hdstep : dispatchesWithin t0 w (stepEv s e).2 =
          if t0 ≤ e.time ∧ e.time < t0 + w then (stepEv s e).2.length else 0 :=
        dispatchesWithin_const_time t0 w e.time _ (fun d hd => (sd d hd).1)
      have hcap2' : (((stepEv s e).2.length : ℚ) + (stepEv s e).1.tokens ≤ (c : ℚ)) := by
        rw [hcap] at hcap2
        exact hcap2
      have hrate : rate s = (c : ℚ) / (w : ℚ) := by
        unfold rate
        rw [hcap, hwin]
      have hmain : ∀ n2 : ℕ, (n2 = n + dispatchesWithin t0 w (stepEv s e).2) →
          (n2 = 0 ∨ (t0 ≤ (stepEv s e).1.lastRefill ∧
            (n2 : ℚ) + (stepEv s e).1.tokens ≤ (c : ℚ) +
              ((c : ℚ) / (w : ℚ)) * (((stepEv s e).1.lastRefill : ℚ) - (t0 : ℚ)))) := by
        intro n2 hn2
        by_cases hin : t0 ≤ e.time
        · right
          rw [hlr2]
          refine ⟨hin, ?_⟩
          rw [hn2, hdstep, if_pos ⟨hin, hew⟩]
          have hin2 : (t0 : ℚ) ≤ (e.time : ℚ) := by exact_mod_cast hin
          have hrpos : (0 : ℚ) ≤ (c : ℚ) / (w : ℚ) := by positivity
          rcases hinv with hn0 | ⟨hge, hsum⟩
          · subst hn0
            have : (0 : ℚ) ≤ ((c : ℚ) / (w : ℚ)) * ((e.time : ℚ) - (t0 : ℚ)) :=
              mul_nonneg hrpos (by linarith)
            push_cast
            linarith
          · rw [hrate] at hlin2
            have hsplit : ((c : ℚ) / (w : ℚ)) * (((s.lastRefill : ℚ)) - (t0 : ℚ)) +
                ((c : ℚ) / (w : ℚ)) * ((e.time : ℚ) - (s.lastRefill : ℚ)) =
                ((c : ℚ) / (w : ℚ)) * ((e.time : ℚ) - (t0 : ℚ)) := by ring
            push_cast
            linarith
        · left
          rw [hn2, hdstep, if_neg (fun hcon => hin hcon.1)]
          rcases hinv with hn0 | ⟨hge, hsum⟩
          · omega
          · exact absurd (le_trans hge hlr_e) hin
      have hrec := ih (stepEv s e).1 (n + dispatchesWithin t0 w (stepEv s e).2)
        (sc.trans hcap) (sw.trans hwin) s0' (by rw [← hcap]; exact sC') st'
        (by rw [hlr2]; exact hew)
        (fun e2 he2 => by rw [hlr2]; exact List.rel_of_pairwise_cons hpair he2)
        hpair.of_cons (fun e2 he2 => hwnd e2 (List.mem_cons_of_mem _ he2))
        (fun e2 he2 => hnc e2 (List.mem_cons_of_mem _ he2))
        (hmain _ rfl)
      omega

/-- C1 (amended): for a scheduler configured with capacity `c > 0` and window
`w > 0` ms, any trace of enqueue, process and timer-fire events (no clear)
with nondecreasing timestamps dispatches at most `2·c` frames in any time
interval of length `w`.  The bound `c` claimed in the spec does not hold: a
full bucket allows a burst of `c` and the refill rate `c/w` regenerates up to
`c` more tokens strictly inside the same window. -/
theorem scheduler_pacing_two_capacity (c w burst : ℕ) (hc : 0 < c) (hw : 0 < w)
    (evs : List TimedEv)
    (hpair : List.Pairwise (fun a b => a.time ≤ b.time) evs)
    (hnc : ∀ e ∈ evs, e.ev ≠ SchedEv.clearQ) (t0 : ℕ) :
    dispatchesWithin t0 w (runEvs (initSched c w burst) evs).2 ≤ 2 * c := by
  have hsplit :
      evs.takeWhile (fun x => decide (x.time < t0 + w)) ++
        evs.dropWhile (fun x => decide (x.time < t0 + w)) = evs := by
    simp [List.takeWhile_append_dropWhile]
  have hsubA : List.Sublist (evs.takeWhile (fun x => decide (x.time < t0 + w))) evs :=
    List.takeWhile_sublist _
  have hsubB : List.Sublist (evs.dropWhile (fun x => decide (x.time < t0 + w))) evs :=
    List.dropWhile_sublist _
  rw [← hsplit, runEvs_append, dispatchesWithin_append]
  have hA := window_bound_aux t0 w c hw
    (evs.takeWhile (fun x => decide (x.time < t0 + w))) (initSched c w burst) 0
    rfl rfl (by simp [initSched]) (by simp [initSched]) (by simp [initSched, qlen])
    (by simp only [initSched]; omega)
    (fun e _ => by simp [initSched])
    (hpair.sublist hsubA)
    (fun e he => by simpa using List.mem_takeWhile_imp he)
    (fun e he => hnc e (hsubA.subset he))
    (Or.inl rfl)
  have hB : dispatchesWithin t0 w
      (runEvs (runEvs (initSched c w burst)
        (evs.takeWhile (fun x => decide (x.time < t0 + w)))).1
        (evs.dropWhile (fun x => decide (x.time < t0 + w)))).2 = 0 := by
    obtain ⟨ac, aw, a0, aC, at', ad⟩ :=
      runEvs_inv (evs.takeWhile (fun x => decide (x.time < t0 + w)))
        (initSched c w burst) (by simp [initSched]) (by simp [initSched])
        (by simp [initSched, qlen])
    obtain ⟨bc, bw, b0, bC, bt, bd⟩ :=
      runEvs_inv (evs.dropWhile (fun x => decide (x.time < t0 + w))) _ a0
        (by rw [← ac] at aC; exact aC) at'
    apply dispatchesWithin_zero_of_late
    intro d hd
    obtain ⟨⟨e2, he2, hdt⟩, -, -⟩ := bd d hd
    rw [hdt]
    exact dropWhile_time_ge (t0 + w) evs hpair e2 he2
  rw [hB]
  simpa using hA

/-- Witness instantiation of `scheduler_pacing_two_capacity` at `c = w = 1`
with the empty trace. -/
theorem scheduler_pacing_two_capacity_witness :
    dispatchesWithin 0 1 (runEvs (initSched 1 1 0) []).2 ≤ 2 * 1 :=
  scheduler_pacing_two_capacity 1 1 0 (by decide) (by decide) [] (by simp)
    (by simp) 0

/-- The trace refuting the claimed bound: capacity 2, window 4 ms; four
normal frames enqueued at t = 0, then the armed refill timer fires at its
deadlines t = 2 and t = 4. -/
def cexTrace : List TimedEv :=
  [⟨0, .enq 1 false⟩, ⟨0, .enq 2 false⟩, ⟨0, .enq 3 false⟩, ⟨0, .enq 4 false⟩,
   ⟨2, .fire⟩, ⟨4, .fire⟩]

/-- C1 (counterexample): with capacity `c = 2` and window `w = 4` ms, the
trace `cexTrace` (monotone timestamps, no clear, timer fires exactly at the
armed deadlines) produces dispatches at t = 0, 0, 2, 4, so the half-open
window [0, 4) of length `w` contains 3 > c dispatches: the claimed per-window
bound of `c` is violated. -/
theorem scheduler_pacing_claim_false :
    List.Pairwise (fun a b => a.time ≤ b.time) cexTrace ∧
    (∀ e ∈ cexTrace, e.ev ≠ SchedEv.clearQ) ∧
    (runEvs (initSched 2 4 8) cexTrace).2.map (fun d => d.time) = [0, 0, 2, 4] ∧
    dispatchesWithin 0 4 (runEvs (initSched 2 4 8) cexTrace).2 = 3 ∧
    ¬ (dispatchesWithin 0 4 (runEvs (initSched 2 4 8) cexTrace).2 ≤ 2) := by
  refine ⟨by decide, by decide, ?_, ?_, ?_⟩ <;>
    · norm_num [cexTrace, runEvs, stepEv, enqueue, process, refill, processLoop,
        dequeueFrame, schedule, qlen, rate, initSched, dispatchesWithin, clearSched]
      try decide

end Scheduler

/-! ### Gateway shard: heartbeat zombie detection, destroy, identify/resume
and the outbound `_send` guard (src/unnamed/part_002, `WebSocketShard`).

Timers are modelled as armed/disarmed flags; the scheduler state cleared in
destroy step 6 is verified separately above.  `destroy`'s close-throw fallback
(`terminate`) is collapsed into the close action, as both tear the socket
down on the same path. -/

namespace Shard

/-- The shard status constants used by the heartbeat and identify paths. -/
inductive ShStatus where
  | idle
  | connecting
  | reconnecting
  | nearly
  | waitingForGuilds
  | identifying
  | resuming
  | ready
  | disconnected
deriving Repr, DecidableEq

/-- WebSocket ready states. -/
inductive WSReady where
  | connecting
  | wsOpen
  | closing
  | closed
deriving Repr, DecidableEq

/-- The gateway payloads relevant to heartbeat/identify/resume. -/
inductive GatewayPayload where
  | heartbeat (seq : ℤ)
  | qosHeartbeat (seq : ℤ)
  | identifyP
  | resumeP (sessionId : String) (seq : ℤ)
deriving Repr, DecidableEq

/-- Observable actions a shard method performs. -/
inductive ShardAction where
  | destroyLog (closeCode : ℕ) (reset : Bool)
  | closeConn (code : ℕ)
  | emitDestroyed
  | shardError
  | enqueueSend (p : GatewayPayload) (important : Bool)
  | transmit (byteSize : ℕ)
deriving Repr, DecidableEq

/-- The shard fields the embedded methods read and write. -/
structure ShardState where
  status : ShStatus
  lastHeartbeatAcked : Bool
  sequence : ℤ
  closeSequence : ℤ
  sessionId : Option String
  resumeURL : Option String
  connection : Option WSReady
  lastPingTimestamp : ℤ
  wsCloseTimeoutArmed : Bool
  heartbeatTimerArmed : Bool
  helloTimeoutArmed : Bool
  invalidSessionTimerArmed : Bool
deriving Repr, DecidableEq

/-- `destroy({ closeCode, reset, emit })`: cancel the timers, close (or log
the destroy for a missing connection), arm the ws-close watchdog, null the
connection, set status Disconnected, cache the close sequence, and clear the
session state when `reset` is requested. -/
def destroy (s : ShardState) (closeCode : ℕ) (reset emit : Bool) :
    ShardState × List ShardAction :=
  let closeActs :=
    match s.connection with
    | some WSReady.wsOpen => [ShardAction.closeConn closeCode]
    | some _ =>
      ShardAction.closeConn closeCode ::
        (if emit then [ShardAction.emitDestroyed] else [])
    | none => if emit then [ShardAction.emitDestroyed] else []
  ({ s with
      heartbeatTimerArmed := false, helloTimeoutArmed := false,
      invalidSessionTimerArmed := false,
      wsCloseTimeoutArmed := true,
      connection := none,
      status := ShStatus.disconnected,
      closeSequence := if s.sequence ≠ -1 then s.sequence else s.closeSequence,
      resumeURL := if reset then none else s.resumeURL,
      sequence := if reset then -1 else s.sequence,
      sessionId := if reset then none else s.sessionId },
   ShardAction.destroyLog closeCode reset :: closeActs)

/-- The default of the `ignoreHeartbeatAck` parameter of `sendHeartbeat`. -/
def defaultIgnoreAck (s : ShardState) : Bool :=
  s.status = ShStatus.waitingForGuilds || s.status = ShStatus.identifying ||
    s.status = ShStatus.resuming

/-- The tail of `sendHeartbeat` once the zombie check has passed: drop the
ack flag, stamp the ping clock and enqueue the (QoS or plain) heartbeat as an
important frame. -/
def heartbeatSend (s : ShardState) (useQos : Bool) (now : ℤ) :
    ShardState × List ShardAction :=
  ({ s with lastHeartbeatAcked := false, lastPingTimestamp := now },
   [if useQos then ShardAction.enqueueSend (GatewayPayload.qosHeartbeat s.sequence) true
    else ShardAction.enqueueSend (GatewayPayload.heartbeat s.sequence) true])

/-- `sendHeartbeat(tag, ignoreHeartbeatAck)`: on a missing ack with the
forced-heartbeat path disabled, destroy with close code 4009 and
`reset: true`; otherwise send the heartbeat. -/
def sendHeartbeat (s : ShardState) (ignoreHeartbeatAck useQos : Bool) (now : ℤ) :
    ShardState × List ShardAction :=
  if ignoreHeartbeatAck && !s.lastHeartbeatAcked then heartbeatSend s useQos now
  else if !s.lastHeartbeatAcked then destroy s 4009 true true
  else heartbeatSend s useQos now

/-- `identify()`: clear the invalid-session timer, then `identifyResume` when
a session id is stored (sending RESUME with the stored session id and the
close sequence) and `identifyNew` otherwise (sending IDENTIFY when a token is
available). -/
def identify (s : ShardState) (tokenPresent : Bool) : ShardState × List ShardAction :=
  match s.sessionId with
  | some sid =>
    ({ s with invalidSessionTimerArmed := false, status := ShStatus.resuming },
     [ShardAction.enqueueSend (GatewayPayload.resumeP sid s.closeSequence) true])
  | none =>
    if tokenPresent then
      ({ s with invalidSessionTimerArmed := false, status := ShStatus.identifying },
       [ShardAction.enqueueSend GatewayPayload.identifyP true])
    else ({ s with invalidSessionTimerArmed := false }, [])

/-- An outbound frame as `_send` sees it: the byte size of its packed
encoding, or `none` when `WebSocket.pack` throws. -/
structure OutFrame where
  packed : Option ℕ
deriving Repr, DecidableEq

/-- `_send(data)`: destroy with close code 4000 when no OPEN socket is
available; emit SHARD_ERROR and keep the connection for pack failures and for
payloads larger than `15 * 1024` bytes; otherwise transmit. -/
def wsSend (s : ShardState) (f : OutFrame) : ShardState × List ShardAction :=
  if s.connection ≠ some WSReady.wsOpen then destroy s 4000 false true
  else
    match f.packed with
    | none => (s, [ShardAction.shardError])
    | some n =>
      if 15 * 1024 < n then (s, [ShardAction.shardError])
      else (s, [ShardAction.transmit n])

theorem destroy_spec (s : ShardState) (code : ℕ) (reset emit : Bool) :
    (destroy s code reset emit).1.status = ShStatus.disconnected ∧
    (destroy s code reset emit).1.connection = none ∧
    (destroy s code reset emit).1.wsCloseTimeoutArmed = true ∧
    ((destroy s code reset emit).1.sessionId = if reset then none else s.sessionId) ∧
    ((destroy s code reset emit).1.sequence = if reset then -1 else s.sequence) ∧
    ShardAction.destroyLog code reset ∈ (destroy s code reset emit).2 ∧
    (s.connection = some WSReady.wsOpen →
      ShardAction.closeConn code ∈ (destroy s code reset emit).2) ∧
    (∀ n, ShardAction.transmit n ∉ (destroy s code reset emit).2) ∧
    (∀ p i, ShardAction.enqueueSend p i ∉ (destroy s code reset emit).2) := by
  rcases s with ⟨st, ack, sq, cs, sid, ru, conn, lp, wst, hbt, hlt, ist⟩
  rcases conn with _ | st2
  · cases emit <;> simp [destroy]
  · cases st2 <;> cases emit <;> simp [destroy]

/-- C2 (amended): when `sendHeartbeat` runs with its default
`ignoreHeartbeatAck` (false because the status is none of Identifying,
Resuming, WaitingForGuilds) and the previous heartbeat was not acknowledged,
the shard is torn down via `destroy` with close code 4009 — but with
`reset: true`, which clears the stored `session_id`, sequence and resume URL.
The identify step of the following reconnect therefore sends IDENTIFY, never
RESUME, even when a `session_id` was known at teardown time. -/
theorem zombie_heartbeat_teardown (s : ShardState) (useQos : Bool) (now : ℤ)
    (hack : s.lastHeartbeatAcked = false)
    (h1 : s.status ≠ ShStatus.identifying) (h2 : s.status ≠ ShStatus.resuming)
    (h3 : s.status ≠ ShStatus.waitingForGuilds) :
    sendHeartbeat s (defaultIgnoreAck s) useQos now = destroy s 4009 true true ∧
    (sendHeartbeat s (defaultIgnoreAck s) useQos now).1.status = ShStatus.disconnected ∧
    (s.connection = some WSReady.wsOpen →
      ShardAction.closeConn 4009 ∈ (sendHeartbeat s (defaultIgnoreAck s) useQos now).2) ∧
    (sendHeartbeat s (defaultIgnoreAck s) useQos now).1.sessionId = none ∧
    (∀ tokenPresent,
      (identify (sendHeartbeat s (defaultIgnoreAck s) useQos now).1 tokenPresent).2 =
        if tokenPresent then [ShardAction.enqueueSend GatewayPayload.identifyP true]
        else []) := by
  have hig : defaultIgnoreAck s = false := by
    unfold defaultIgnoreAck
    simp [h1, h2, h3]
  have hstep : sendHeartbeat s (defaultIgnoreAck s) useQos now = destroy s 4009 true true := by
    unfold sendHeartbeat
    rw [hig, hack]
    simp
  obtain ⟨hst, hcn, hws, hsid, hseq, hlog, hclose, hnt, hne⟩ := destroy_spec s 4009 true true
  refine ⟨hstep, ?_, ?_, ?_, ?_⟩
  · rw [hstep]; exact hst
  · intro hc; rw [hstep]; exact hclose hc
  · rw [hstep]; simpa using hsid
  · intro tokenPresent
    rw [hstep]
    have : (destroy s 4009 true true).1.sessionId = none := by simpa using hsid
    unfold identify
    rw [this]
    cases tokenPresent <;> simp

/-- A concrete zombie scenario: shard Ready, heartbeat unacked, a session id
and 12 events received. -/
def zombieState : ShardState :=
  { status := ShStatus.ready, lastHeartbeatAcked := false, sequence := 12,
    closeSequence := 0, sessionId := some "sess", resumeURL := some "wss://resume",
    connection := some WSReady.wsOpen, lastPingTimestamp := 0,
    wsCloseTimeoutArmed := false, heartbeatTimerArmed := true,
    helloTimeoutArmed := false, invalidSessionTimerArmed := false }

/-- C2 (counterexample): in `zombieState` a `session_id` is known and the
zombie teardown fires with close code 4009, but the reconnect's identify step
emits IDENTIFY — the claimed RESUME with the stored session id and sequence is
never sent, because `destroy` was invoked with `reset: true`. -/
theorem zombie_resume_claim_false :
    zombieState.sessionId = some "sess" ∧
    zombieState.lastHeartbeatAcked = false ∧
    zombieState.status ≠ ShStatus.identifying ∧
    zombieState.status ≠ ShStatus.resuming ∧
    zombieState.status ≠ ShStatus.waitingForGuilds ∧
    ShardAction.closeConn 4009 ∈
      (sendHeartbeat zombieState (defaultIgnoreAck zombieState) false 100).2 ∧
    (sendHeartbeat zombieState (defaultIgnoreAck zombieState) false 100).1.sessionId = none ∧
    (identify (sendHeartbeat zombieState (defaultIgnoreAck zombieState) false 100).1 true).2 =
      [ShardAction.enqueueSend GatewayPayload.identifyP true] := by
  decide

/-- Witness for `zombie_heartbeat_teardown` at `zombieState`. -/
theorem zombie_heartbeat_teardown_witness :
    sendHeartbeat zombieState (defaultIgnoreAck zombieState) false 100 =
      destroy zombieState 4009 true true ∧
    (sendHeartbeat zombieState (defaultIgnoreAck zombieState) false 100).1.status =
      ShStatus.disconnected ∧
    (zombieState.connection = some WSReady.wsOpen →
      ShardAction.closeConn 4009 ∈
        (sendHeartbeat zombieState (defaultIgnoreAck zombieState) false 100).2) ∧
    (sendHeartbeat zombieState (defaultIgnoreAck zombieState) false 100).1.sessionId = none ∧
    (∀ tokenPresent,
      (identify (sendHeartbeat zombieState (defaultIgnoreAck zombieState) false 100).1
          tokenPresent).2 =
        if tokenPresent then [ShardAction.enqueueSend GatewayPayload.identifyP true]
        else []) :=
  zombie_heartbeat_teardown zombieState false 100 (by decide) (by decide) (by decide)
    (by decide)

/-- C8: a frame whose packed encoding exceeds `15 * 1024` bytes is not
transmitted: `_send` emits SHARD_ERROR and returns with the state — including
the open connection — completely unchanged (no close, no destroy, nothing
re-queued). -/
theorem oversized_frame_refused (s : ShardState) (f : OutFrame) (n : ℕ)
    (hconn : s.connection = some WSReady.wsOpen)
    (hpack : f.packed = some n) (hsize : 15 * 1024 < n) :
    wsSend s f = (s, [ShardAction.shardError]) := by
  unfold wsSend
  rw [hpack]
  simp [hconn, hsize]

/-- Witness for `oversized_frame_refused`: a 15361-byte frame on an open
shard. -/
theorem oversized_frame_refused_witness :
    wsSend { zombieState with lastHeartbeatAcked := true } ⟨some 15361⟩ =
      ({ zombieState with lastHeartbeatAcked := true }, [ShardAction.shardError]) :=
  oversized_frame_refused _ _ 15361 (by decide) rfl (by decide)

/-- C10: when the scheduler dispatches a frame while the connection is null
or not OPEN, `_send` transmits nothing, drops the frame without re-queueing
it, and destroys the shard with close code 4000 — status Disconnected, the
ws-close watchdog armed (the reconnect path). -/
theorem send_without_open_socket (s : ShardState) (f : OutFrame)
    (hconn : s.connection ≠ some WSReady.wsOpen) :
    wsSend s f = destroy s 4000 false true ∧
    (∀ n, ShardAction.transmit n ∉ (wsSend s f).2) ∧
    (∀ p i, ShardAction.enqueueSend p i ∉ (wsSend s f).2) ∧
    (wsSend s f).1.status = ShStatus.disconnected ∧
    (wsSend s f).1.wsCloseTimeoutArmed = true ∧
    ShardAction.destroyLog 4000 false ∈ (wsSend s f).2 := by
  have hstep : wsSend s f = destroy s 4000 false true := by
    unfold wsSend
    simp [hconn]
  obtain ⟨hst, hcn, hws, hsid, hseq, hlog, hclose, hnt, hne⟩ := destroy_spec s 4000 false true
  rw [hstep]
  exact ⟨rfl, hnt, hne, hst, hws, hlog⟩

/-- Witness for `send_without_open_socket`: a shard whose connection is
already gone. -/
theorem send_without_open_socket_witness :
    wsSend { zombieState with connection := none } ⟨some 10⟩ =
      destroy { zombieState with connection := none } 4000 false true ∧
    (∀ n, ShardAction.transmit n ∉
      (wsSend { zombieState with connection := none } ⟨some 10⟩).2) ∧
    (∀ p i, ShardAction.enqueueSend p i ∉
      (wsSend { zombieState with connection := none } ⟨some 10⟩).2) ∧
    (wsSend { zombieState with connection := none } ⟨some 10⟩).1.status =
      ShStatus.disconnected ∧
    (wsSend { zombieState with connection := none } ⟨some 10⟩).1.wsCloseTimeoutArmed = true ∧
    ShardAction.destroyLog 4000 false ∈
      (wsSend { zombieState with connection := none } ⟨some 10⟩).2 :=
  send_without_open_socket _ _ (by decide)
end Shard

/-! ### READY subscription chunking
(src/src/client/websocket/handlers/READY.js).

Byte sizes are modelled with `String.length`; guild ids are snowflakes
(ASCII digits), for which `Buffer.byteLength(JSON.stringify(id))` is exactly
the quoted length.  A chunk is the list of assignments performed on the
`subscriptions` object, in order; its JSON key set is the deduplicated list
(later assignments of the same key overwrite, which can only shrink the
serialized frame). -/

namespace ReadyChunks

/-- `JSON.stringify(createSubscription())`. -/
def serializedSubscription : String :=
  "\x7b\"typing\":true,\"threads\":true,\"activities\":true,\"member_updates\":true,\"thread_member_lists\":[],\"members\":[],\"channels\":\x7b\x7d\x7d"

/-- `SERIALIZED_SUBSCRIPTION_SIZE`. -/
def serializedSubscriptionSize : ℕ := serializedSubscription.length

/-- `MAX_SUBSCRIPTION_PACKET_BYTES = 14 * 1024`. -/
def maxSubscriptionBytes : ℕ := 14 * 1024

/-- `JSON.stringify` of a guild id free of characters needing escapes. -/
def jsonQuote (g : String) : String := "\"" ++ g ++ "\""

/-- `getSubscriptionEntrySize(guildId)`. -/
def getSubscriptionEntrySize (g : String) : ℕ :=
  (jsonQuote g).length + 1 + serializedSubscriptionSize

/-- `SUBSCRIPTION_PAYLOAD_PREFIX` with the opcode rendered as decimal
digits. -/
def payloadHead (opDigits : String) : String :=
  "\x7b\"op\":" ++ opDigits ++ ",\"d\":\x7b\"subscriptions\":\x7b"

/-- `SUBSCRIPTION_PAYLOAD_SUFFIX`. -/
def payloadTail : String := "\x7d\x7d\x7d"

/-- Modelled from the spec: `SUBSCRIPTION_PAYLOAD_BASE_SIZE` with opcode
`GUILD_SUBSCRIPTIONS_BULK = 37`; the opcode table lives in util/Constants,
which is not part of the provided sources.  Every theorem below that depends
on the base size is parametric in it — only the concrete counterexample uses
this value, and any positive base yields the same conclusion. -/
def subscriptionBaseSize : ℕ := (payloadHead "37").length + payloadTail.length

/-- The loop state of `buildSubscriptionChunks`: emitted chunks, the current
chunk's assignment list, `subscriptionCount` and `payloadSize`. -/
structure ChunkAcc where
  chunks : List (List String)
  cur : List String
  curCount : ℕ
  paySize : ℕ
deriving Repr, DecidableEq

/-- One iteration of the `for (const guild of guilds)` loop: flush a
non-empty chunk that the next entry would push over the cap, append the
entry, and flush immediately when a fresh single-entry chunk is already over
budget. -/
def chunkStep (baseB : ℕ) (acc : ChunkAcc) (g : String) : ChunkAcc :=
  let e := getSubscriptionEntrySize g
  let acc1 :=
    if 0 < acc.curCount ∧
        maxSubscriptionBytes < acc.paySize + (if 0 < acc.curCount then 1 else 0) + e then
      { chunks := acc.chunks ++ [acc.cur], cur := ([] : List String), curCount := 0,
        paySize := baseB }
    else acc
  let acc2 :=
    { acc1 with
      cur := acc1.cur ++ [g],
      curCount := acc1.curCount + 1,
      paySize := acc1.paySize + (if 0 < acc1.curCount then 1 else 0) + e }
  if acc2.curCount = 1 ∧ maxSubscriptionBytes < acc2.paySize then
    { chunks := acc2.chunks ++ [acc2.cur], cur := [], curCount := 0, paySize := baseB }
  else acc2

/-- `buildSubscriptionChunks(guilds)`: fold the loop body over the ids and
flush the non-empty final chunk. -/
def buildSubscriptionChunks (baseB : ℕ) (ids : List String) : List (List String) :=
  let acc := ids.foldl (chunkStep baseB) ⟨[], [], 0, baseB⟩
  if 0 < acc.curCount then acc.chunks ++ [acc.cur] else acc.chunks

/-- The separator-and-entry cost the loop accounts for a list of
assignments. -/
def entriesCost (l : List String) : ℕ :=
  (l.map getSubscriptionEntrySize).sum + (l.length - 1)

/-- The serialized JSON size of an emitted frame: fixed envelope plus the
cost of the deduplicated key set. -/
def frameBytes (baseB : ℕ) (c : List String) : ℕ :=
  baseB + entriesCost c.dedup

theorem sum_le_of_sublist : ∀ (l1 l2 : List ℕ), List.Sublist l1 l2 → l1.sum ≤ l2.sum := by
  intro l1 l2 h
  induction h with
  | slnil => exact le_refl _
  | cons a h ih => simpa using le_trans ih (by simp)
  | cons₂ a h ih => simpa using ih

theorem entriesCost_dedup_le (l : List String) : entriesCost l.dedup ≤ entriesCost l := by
  unfold entriesCost
  have hsub : List.Sublist l.dedup l := List.dedup_sublist l
  have h1 : (l.dedup.map getSubscriptionEntrySize).sum ≤ (l.map getSubscriptionEntrySize).sum :=
    sum_le_of_sublist _ _ (hsub.map _)
  have h2 : l.dedup.length ≤ l.length := hsub.length_le
  omega

theorem frameBytes_le_assign (baseB : ℕ) (c : List String) :
    frameBytes baseB c ≤ baseB + entriesCost c :=
  Nat.add_le_add_left (entriesCost_dedup_le c) baseB

theorem entriesCost_append_singleton (l : List String) (g : String) :
    entriesCost (l ++ [g]) =
      entriesCost l + (if 0 < l.length then 1 else 0) + getSubscriptionEntrySize g := by
  unfold entriesCost
  rcases l with _ | ⟨a, rest⟩
  · simp
  · simp [List.sum_append]
    omega

theorem chunkStep_inv (baseB : ℕ) (acc : ChunkAcc) (g : String)
    (hfit : baseB + getSubscriptionEntrySize g ≤ maxSubscriptionBytes)
    (hch : ∀ c ∈ acc.chunks, c ≠ [] ∧ frameBytes baseB c ≤ maxSubscriptionBytes)
    (hcount : acc.curCount = acc.cur.length)
    (hpay : acc.paySize = baseB + entriesCost acc.cur)
    (hcur : acc.cur ≠ [] → acc.paySize ≤ maxSubscriptionBytes) :
    (∀ c ∈ (chunkStep baseB acc g).chunks, c ≠ [] ∧
      frameBytes baseB c ≤ maxSubscriptionBytes) ∧
    (chunkStep baseB acc g).curCount = (chunkStep baseB acc g).cur.length ∧
    (chunkStep baseB acc g).paySize = baseB + entriesCost (chunkStep baseB acc g).cur ∧
    ((chunkStep baseB acc g).cur ≠ [] →
      (chunkStep baseB acc g).paySize ≤ maxSubscriptionBytes) ∧
    (∀ x, ((∃ c ∈ (chunkStep baseB acc g).chunks, x ∈ c) ∨ x ∈ (chunkStep baseB acc g).cur) ↔
      ((∃ c ∈ acc.chunks, x ∈ c) ∨ x ∈ acc.cur ∨ x = g)) := by
  by_cases hA : 0 < acc.curCount ∧
      maxSubscriptionBytes <
        acc.paySize + (if 0 < acc.curCount then 1 else 0) + getSubscriptionEntrySize g
  · obtain ⟨hA1, hA2⟩ := hA
    have hA2' : maxSubscriptionBytes < acc.paySize + 1 + getSubscriptionEntrySize g := by
      simpa [hA1] using hA2
    have h2 : ¬ (maxSubscriptionBytes < baseB + getSubscriptionEntrySize g) := by omega
    have hres : chunkStep baseB acc g =
        { chunks := acc.chunks ++ [acc.cur], cur := [g], curCount := 1,
          paySize := baseB + getSubscriptionEntrySize g } := by
      simp [chunkStep, hA1, hA2', h2]
    have hne : acc.cur ≠ [] := by
      intro hnil
      rw [hnil] at hcount
      simp at hcount
      omega
    rw [hres]
    refine ⟨?_, by simp, ?_, ?_, ?_⟩
    · intro c hc
      rcases List.mem_append.mp hc with hc | hc
      · exact hch c hc
      · have hceq : c = acc.cur := by simpa using hc
        rw [hceq]
        exact ⟨hne, le_trans (frameBytes_le_assign baseB acc.cur)
          (by rw [← hpay]; exact hcur hne)⟩
    · show baseB + getSubscriptionEntrySize g = baseB + entriesCost [g]
      have he : entriesCost [g] = getSubscriptionEntrySize g := by
        unfold entriesCost
        simp
      rw [he]
    · intro _
      show baseB + getSubscriptionEntrySize g ≤ maxSubscriptionBytes
      exact hfit
    · intro x
      show (∃ c ∈ acc.chunks ++ [acc.cur], x ∈ c) ∨ x ∈ [g] ↔ _
      simp only [List.mem_append, List.mem_singleton]
      constructor
      · rintro (⟨c, hc | hc, hx⟩ | hx)
        · exact Or.inl ⟨c, hc, hx⟩
        · subst hc
          exact Or.inr (Or.inl hx)
        · exact Or.inr (Or.inr hx)
      · rintro (⟨c, hc, hx⟩ | hx | hx)
        · exact Or.inl ⟨c, Or.inl hc, hx⟩
        · exact Or.inl ⟨acc.cur, Or.inr (by simp), hx⟩
        · exact Or.inr hx
  · have h2 : ¬ ((acc.curCount + 1 = 1) ∧ maxSubscriptionBytes <
        acc.paySize + (if 0 < acc.curCount then 1 else 0) + getSubscriptionEntrySize g) := by
      rintro ⟨hc1, hlt⟩
      have hz : acc.curCount = 0 := by omega
      have hnil : acc.cur = [] := by
        rw [hz] at hcount
        exact (List.length_eq_zero.mp hcount.symm)
      rw [hnil] at hpay
      simp [entriesCost] at hpay
      rw [hz] at hlt
      simp at hlt
      omega
    have hres : chunkStep baseB acc g =
        { chunks := acc.chunks, cur := acc.cur ++ [g], curCount := acc.curCount + 1,
          paySize := acc.paySize + (if 0 < acc.curCount then 1 else 0) +
            getSubscriptionEntrySize g } := by
      simp only [chunkStep]
      rw [if_neg hA, if_neg h2]
    rw [hres]
    refine ⟨hch, by simp [hcount], ?_, ?_, ?_⟩
    · show acc.paySize + (if 0 < acc.curCount then 1 else 0) + getSubscriptionEntrySize g =
        baseB + entriesCost (acc.cur ++ [g])
      rw [hpay, entriesCost_append_singleton, hcount]
      omega
    · intro _
      show acc.paySize + (if 0 < acc.curCount then 1 else 0) + getSubscriptionEntrySize g ≤
        maxSubscriptionBytes
      by_cases hz : 0 < acc.curCount
      · have hno : ¬ maxSubscriptionBytes <
            acc.paySize + (if 0 < acc.curCount then 1 else 0) + getSubscriptionEntrySize g :=
          fun hlt => hA ⟨hz, hlt⟩
        omega
      · have hz0 : acc.curCount = 0 := by omega
        have hnil : acc.cur = [] := by
          rw [hz0] at hcount
          exact (List.length_eq_zero.mp hcount.symm)
        rw [hnil] at hpay
        simp [entriesCost] at hpay
        rw [hz0, hpay]
        simpa using hfit
    · intro x
      show (∃ c ∈ acc.chunks, x ∈ c) ∨ x ∈ acc.cur ++ [g] ↔ _
      simp [List.mem_append]

theorem or_chain {A B C D E X Y G : Prop} (h1 : A ∨ B ↔ C ∨ D ∨ E)
    (h2 : C ∨ D ↔ X ∨ Y ∨ G) : A ∨ B ↔ X ∨ Y ∨ (G ∨ E) := by tauto

theorem chunk_fold_inv (baseB : ℕ) : ∀ (gs : List String) (acc : ChunkAcc),
    (∀ g ∈ gs, baseB + getSubscriptionEntrySize g ≤ maxSubscriptionBytes) →
    (∀ c ∈ acc.chunks, c ≠ [] ∧ frameBytes baseB c ≤ maxSubscriptionBytes) →
    acc.curCount = acc.cur.length →
    acc.paySize = baseB + entriesCost acc.cur →
    (acc.cur ≠ [] → acc.paySize ≤ maxSubscriptionBytes) →
    (∀ c ∈ (gs.foldl (chunkStep baseB) acc).chunks, c ≠ [] ∧
      frameBytes baseB c ≤ maxSubscriptionBytes) ∧
    (gs.foldl (chunkStep baseB) acc).curCount = (gs.foldl (chunkStep baseB) acc).cur.length ∧
    (gs.foldl (chunkStep baseB) acc).paySize =
      baseB + entriesCost (gs.foldl (chunkStep baseB) acc).cur ∧
    ((gs.foldl (chunkStep baseB) acc).cur ≠ [] →
      (gs.foldl (chunkStep baseB) acc).paySize ≤ maxSubscriptionBytes) ∧
    (∀ x, ((∃ c ∈ (gs.foldl (chunkStep baseB) acc).chunks, x ∈ c) ∨
        x ∈ (gs.foldl (chunkStep baseB) acc).cur) ↔
      ((∃ c ∈ acc.chunks, x ∈ c) ∨ x ∈ acc.cur ∨ x ∈ gs)) := by
  intro gs
  induction gs with
  | nil =>
    intro acc _ hch hcount hpay hcur
    refine ⟨hch, hcount, hpay, hcur, ?_⟩
    intro x
    simp
  | cons g rest ih =>
    intro acc hfit hch hcount hpay hcur
    obtain ⟨sch, scount, spay, scur, smem⟩ :=
      chunkStep_inv baseB acc g (hfit g (List.mem_cons_self _ _)) hch hcount hpay hcur
    obtain ⟨rch, rcount, rpay, rcur, rmem⟩ :=
      ih (chunkStep baseB acc g) (fun x hx => hfit x (List.mem_cons_of_mem _ hx))
        sch scount spay scur
    refine ⟨rch, rcount, rpay, rcur, ?_⟩
    intro x
    simp only [List.foldl_cons, List.mem_cons]
    exact or_chain (rmem x) (smem x)

/-- C3 (amended): whenever every guild id fits in a frame together with the
fixed envelope (`baseB + entry ≤ 14 KiB` — note: stronger than the claimed
`entry ≤ 14 KiB`), the planner emits only non-empty frames, every emitted
frame's serialized JSON is at most 14 KiB, and the union of the guild-id keys
over all frames equals the set of input ids.  The non-emptiness and key-union
parts hold for arbitrary inputs; only the byte bound needs the premise. -/
theorem ready_chunking (baseB : ℕ) (ids : List String)
    (hfit : ∀ g ∈ ids, baseB + getSubscriptionEntrySize g ≤ maxSubscriptionBytes) :
    (∀ c ∈ buildSubscriptionChunks baseB ids, c ≠ [] ∧
      frameBytes baseB c ≤ maxSubscriptionBytes) ∧
    (∀ g, (∃ c ∈ buildSubscriptionChunks baseB ids, g ∈ c) ↔ g ∈ ids) := by
  obtain ⟨rch, rcount, rpay, rcur, rmem⟩ :=
    chunk_fold_inv baseB ids ⟨[], [], 0, baseB⟩ hfit (by simp) (by simp)
      (by simp [entriesCost]) (by simp)
  unfold buildSubscriptionChunks
  by_cases hq : 0 < (ids.foldl (chunkStep baseB) ⟨[], [], 0, baseB⟩).curCount
  · have hne : (ids.foldl (chunkStep baseB) ⟨[], [], 0, baseB⟩).cur ≠ [] := by
      intro hnil
      rw [hnil] at rcount
      simp at rcount
      omega
    simp only [hq, if_true]
    constructor
    · intro c hc
      rcases List.mem_append.mp hc with hc | hc
      · exact rch c hc
      · have : c = (ids.foldl (chunkStep baseB) ⟨[], [], 0, baseB⟩).cur := by simpa using hc
        subst this
        exact ⟨hne, le_trans (frameBytes_le_assign baseB _) (by rw [← rpay]; exact rcur hne)⟩
    · intro g
      have := rmem g
      simp only [List.not_mem_nil, false_and, exists_false, or_false, false_or] at this
      simp only [List.mem_append, List.mem_singleton] at this ⊢
      rw [← this]
      constructor
      · rintro ⟨c, hc | hc, hx⟩
        · exact Or.inl ⟨c, hc, hx⟩
        · subst hc
          exact Or.inr hx
      · rintro (⟨c, hc, hx⟩ | hx)
        · exact ⟨c, Or.inl hc, hx⟩
        · exact ⟨_, Or.inr (by simp), hx⟩
  · have hnil : (ids.foldl (chunkStep baseB) ⟨[], [], 0, baseB⟩).cur = [] := by
      have hz : (ids.foldl (chunkStep baseB) ⟨[], [], 0, baseB⟩).curCount = 0 := by omega
      rw [hz] at rcount
      exact (List.length_eq_zero.mp rcount.symm)
    simp only [hq, if_false]
    refine ⟨rch, ?_⟩
    intro g
    have := rmem g
    rw [hnil] at this
    simp only [List.not_mem_nil, false_and, exists_false, or_false, false_or] at this
    exact this

/-- Witness for `ready_chunking`: two 18-digit snowflakes. -/
theorem ready_chunking_witness :
    (∀ c ∈ buildSubscriptionChunks subscriptionBaseSize
        ["111111111111111111", "222222222222222222"],
      c ≠ [] ∧ frameBytes subscriptionBaseSize c ≤ maxSubscriptionBytes) ∧
    (∀ g, (∃ c ∈ buildSubscriptionChunks subscriptionBaseSize
        ["111111111111111111", "222222222222222222"], g ∈ c) ↔
      g ∈ ["111111111111111111", "222222222222222222"]) :=
  ready_chunking subscriptionBaseSize _ (by decide)

/-- A pathological guild id: 14211 repeated digits, whose entry costs exactly
14 KiB. -/
def mkId (n : ℕ) : String := String.mk (List.replicate n (Char.ofNat 49))

/-- C3 (counterexample): the id `mkId 14211` has entry cost exactly
`14 * 1024` — within the claimed premise, hence not "inherently over-cap" —
yet the single frame the planner emits for it serializes to
`34 + 14336 = 14370 > 14 * 1024` bytes: the envelope bytes make the claimed
bound fail.  (The same holds for any positive envelope size, so the modelled
opcode value is immaterial.) -/
theorem ready_chunk_over_cap :
    getSubscriptionEntrySize (mkId 14211) ≤ maxSubscriptionBytes ∧
    buildSubscriptionChunks subscriptionBaseSize [mkId 14211] = [[mkId 14211]] ∧
    frameBytes subscriptionBaseSize [mkId 14211] = 14370 ∧
    ¬ (frameBytes subscriptionBaseSize [mkId 14211] ≤ maxSubscriptionBytes) := by
  have hlen : (mkId 14211).length = 14211 := by
    show (List.replicate 14211 (Char.ofNat 49)).length = 14211
    exact List.length_replicate 14211 _
  have hentry : getSubscriptionEntrySize (mkId 14211) = 14336 := by
    unfold getSubscriptionEntrySize jsonQuote
    rw [String.length_append, String.length_append, hlen]
    rfl
  have hbase : subscriptionBaseSize = 34 := rfl
  refine ⟨by rw [hentry]; decide, ?_, ?_, ?_⟩
  · unfold buildSubscriptionChunks
    simp [chunkStep, hentry, hbase, maxSubscriptionBytes]
  · unfold frameBytes
    simp [entriesCost, hentry, hbase]
  · unfold frameBytes
    simp [entriesCost, hentry, hbase, maxSubscriptionBytes]

end ReadyChunks

/-! ### FastQueue (src/src/util/FastQueue.js).

The back storage is a power-of-two ring of slots; `new Array(n)` is a list of
`n` empty (`none`) slots, `&` is modelled with `&&&`, and `<<`/`>>` with
`<<<`/`>>>`.  The front storage is a JS array used as a stack: `push` appends
at the end, `pop` removes from the end. -/

namespace Queue

/-- `FastQueue.MIN_BACK_CAPACITY = 16`. -/
def minBackCapacity : ℕ := 16

/-- The fields of a `FastQueue`. -/
structure FastQueue (α : Type) where
  front : List α
  back : List (Option α)
  backHead : ℕ
  backTail : ℕ
  backLength : ℕ

/-- The freshly constructed queue. -/
def mkEmpty (α : Type) : FastQueue α :=
  ⟨[], List.replicate minBackCapacity none, 0, 0, 0⟩

/-- `_resizeBack(newCapacity)`: copy the `backLength` live slots, in ring
order, to the front of a fresh array. -/
def resizeBack (q : FastQueue α) (newCapacity : ℕ) : FastQueue α :=
  { q with
    back := (List.range newCapacity).map fun i =>
      if i < q.backLength then q.back.getD ((q.backHead + i) &&& (q.back.length - 1)) none
      else none,
    backHead := 0,
    backTail := q.backLength }

/-- `push(value)`: double the ring when full, then write at the tail. -/
def push (q : FastQueue α) (v : α) : FastQueue α :=
  let q := if q.backLength = q.back.length then resizeBack q (q.back.length <<< 1) else q
  { q with
    back := q.back.set q.backTail (some v),
    backTail := (q.backTail + 1) &&& (q.back.length - 1),
    backLength := q.backLength + 1 }

/-- `unshift(value)`: push onto the front stack. -/
def unshift (q : FastQueue α) (v : α) : FastQueue α :=
  { q with front := q.front ++ [v] }

/-- `shift()`: drain the front stack first; otherwise take the slot at the
ring head, clear it, and shrink the ring when occupancy drops to a quarter. -/
def shift (q : FastQueue α) : Option α × FastQueue α :=
  match hf : q.front.getLast? with
  | some v => (some v, { q with front := q.front.dropLast })
  | none =>
    if q.backLength = 0 then (none, q)
    else
      let value := q.back.getD q.backHead none
      let q1 : FastQueue α :=
        { q with
          back := q.back.set q.backHead none,
          backHead := (q.backHead + 1) &&& (q.back.length - 1),
          backLength := q.backLength - 1 }
      if q1.backLength = 0 then (value, { q1 with backHead := 0, backTail := 0 })
      else if minBackCapacity < q1.back.length ∧ q1.backLength ≤ q1.back.length >>> 2 ∧
          minBackCapacity ≤ q1.backLength then
        (value, resizeBack q1 (q1.back.length >>> 1))
      else (value, q1)

/-- The operations of the claim. -/
inductive QOp (α : Type) where
  | pushOp (v : α)
  | unshiftOp (v : α)
  | shiftOp

/-- Run a sequence of operations, collecting every `shift` result. -/
def runQueue (q : FastQueue α) : List (QOp α) → FastQueue α × List (Option α)
  | [] => (q, [])
  | QOp.pushOp v :: rest => runQueue (push q v) rest
  | QOp.unshiftOp v :: rest => runQueue (unshift q v) rest
  | QOp.shiftOp :: rest =>
    let r := shift q
    let rec1 := runQueue r.2 rest
    (rec1.1, r.1 :: rec1.2)

/-- Modelled from the spec: the reference deque is a plain list whose head is
the next element to pop; `push_back` appends, `push_front` conses (so
consecutive front insertions pop in reverse insertion order, before all back
items), `pop_front` takes the head and returns `none` on empty. -/
def specRun (m : List α) : List (QOp α) → List α × List (Option α)
  | [] => (m, [])
  | QOp.pushOp v :: rest => specRun (m ++ [v]) rest
  | QOp.unshiftOp v :: rest => specRun (v :: m) rest
  | QOp.shiftOp :: rest =>
    let rec1 := specRun m.tail rest
    (rec1.1, m.head? :: rec1.2)

/-- The live ring contents, head first. -/
def backListO (q : FastQueue α) : List (Option α) :=
  (List.range q.backLength).map fun i =>
    q.back.getD ((q.backHead + i) % q.back.length) none

/-- The queue's observable contents: front stack (top first), then the
ring. -/
def absList (q : FastQueue α) : List (Option α) :=
  (q.front.reverse.map some) ++ backListO q

/-- Well-formedness of the ring: power-of-two capacity of at least 16, head
in range, occupancy within capacity, and the tail derived from head and
occupancy. -/
def WF (q : FastQueue α) : Prop :=
  (∃ k, 4 ≤ k ∧ q.back.length = 2 ^ k) ∧
  q.backLength ≤ q.back.length ∧
  q.backHead < q.back.length ∧
  q.backTail = (q.backHead + q.backLength) % q.back.length

end Queue

end DiscordSB

namespace DiscordSB.Queue

theorem getD_set_formula {α : Type} (l : List (Option α)) (p j : ℕ) (v : Option α) :
    (l.set p v).getD j none = if p = j ∧ p < l.length then v else l.getD j none := by
  rw [List.getD_eq_getElem?_getD, List.getD_eq_getElem?_getD, List.getElem?_set]
  by_cases hpj : p = j
  · subst hpj
    by_cases hpl : p < l.length
    · simp [hpl]
    · have hnone : l[p]? = none := List.getElem?_eq_none (by omega)
      simp [hpl, hnone]
  · simp [hpj]

theorem getD_range_map {α : Type} (f : ℕ → Option α) (n j : ℕ) (hj : j < n) :
    ((List.range n).map f).getD j none = f j := by
  rw [List.getD_eq_getElem?_getD, List.getElem?_map, List.getElem?_range hj]
  rfl

theorem offset_inj (n h i j : ℕ) (hi : i < n) (hj : j < n)
    (he : (h + i) % n = (h + j) % n) : i = j :=
  Nat.ModEq.eq_of_lt_of_lt (Nat.ModEq.add_left_cancel' h he) hi hj

theorem mod_succ_eq (a n : ℕ) : (a % n + 1) % n = (a + 1) % n := by
  conv_rhs => rw [Nat.add_mod]
  by_cases h : 1 < n
  · rw [Nat.mod_eq_of_lt h]
  · interval_cases n <;> simp

theorem resize_spec {α : Type} (q : FastQueue α) (k2 : ℕ) (hk2 : 4 ≤ k2) (hwf : WF q)
    (hlen : q.backLength < 2 ^ k2) :
    WF (resizeBack q (2 ^ k2)) ∧
    (resizeBack q (2 ^ k2)).front = q.front ∧
    backListO (resizeBack q (2 ^ k2)) = backListO q ∧
    (resizeBack q (2 ^ k2)).back.length = 2 ^ k2 ∧
    (resizeBack q (2 ^ k2)).backLength = q.backLength := by
  obtain ⟨⟨k, hk4, hsz⟩, hle, hhd, htl⟩ := hwf
  refine ⟨⟨⟨k2, hk2, by simp [resizeBack]⟩, ?_, ?_, ?_⟩, rfl, ?_, by simp [resizeBack], rfl⟩
  · simp [resizeBack]
    omega
  · simp [resizeBack]
  · simp [resizeBack]
    rw [Nat.mod_eq_of_lt hlen]
  · unfold backListO
    simp only [resizeBack]
    apply List.map_congr_left
    intro i hi
    have hi2 : i < q.backLength := List.mem_range.mp hi
    have hiC : i < 2 ^ k2 := lt_trans hi2 hlen
    have hlen2 : ((List.range (2 ^ k2)).map fun j =>
        if j < q.backLength then q.back.getD ((q.backHead + j) &&& (q.back.length - 1)) none
        else none).length = 2 ^ k2 := by simp
    rw [hlen2, Nat.zero_add, Nat.mod_eq_of_lt hiC, getD_range_map _ _ _ hiC]
    rw [if_pos hi2, hsz, Nat.and_pow_two_sub_one_eq_mod]

theorem size_ge_16 {α : Type} (q : FastQueue α) (k : ℕ) (hk4 : 4 ≤ k)
    (hsz : q.back.length = 2 ^ k) : 16 ≤ q.back.length := by
  rw [hsz]
  calc (16 : ℕ) = 2 ^ 4 := by norm_num
  _ ≤ 2 ^ k := Nat.pow_le_pow_right (by norm_num) hk4

def pushCore {α : Type} (q : FastQueue α) (v : α) : FastQueue α :=
  { q with
    back := q.back.set q.backTail (some v),
    backTail := (q.backTail + 1) &&& (q.back.length - 1),
    backLength := q.backLength + 1 }

theorem push_eq_nonfull {α : Type} (q : FastQueue α) (v : α)
    (h : ¬ q.backLength = q.back.length) : push q v = pushCore q v := by
  simp [push, pushCore, h]

theorem push_eq_full {α : Type} (q : FastQueue α) (v : α)
    (h : q.backLength = q.back.length) :
    push q v = pushCore (resizeBack q (q.back.length <<< 1)) v := by
  simp [push, pushCore, h]

theorem push_main {α : Type} (q : FastQueue α) (v : α) (hwf : WF q)
    (hlt : q.backLength < q.back.length) :
    WF (pushCore q v) ∧ (pushCore q v).front = q.front ∧
    backListO (pushCore q v) = backListO q ++ [some v] := by
  obtain ⟨⟨k, hk4, hsz⟩, hle, hhd, htl⟩ := hwf
  have h16 : 16 ≤ q.back.length := size_ge_16 q k hk4 hsz
  have hnpos : 0 < q.back.length := by omega
  have hbl : (q.back.set q.backTail (some v)).length = q.back.length :=
    List.length_set _ _ _
  refine ⟨⟨⟨k, hk4, by rw [show (pushCore q v).back = q.back.set q.backTail (some v) from rfl, hbl, hsz]⟩, ?_, ?_, ?_⟩, rfl, ?_⟩
  · show q.backLength + 1 ≤ (q.back.set q.backTail (some v)).length
    rw [hbl]
    omega
  · show q.backHead < (q.back.set q.backTail (some v)).length
    rw [hbl]
    exact hhd
  · show (q.backTail + 1) &&& (q.back.length - 1) =
      (q.backHead + (q.backLength + 1)) % (q.back.set q.backTail (some v)).length
    rw [hbl, hsz, Nat.and_pow_two_sub_one_eq_mod, ← hsz, htl, mod_succ_eq]
    congr 1
  · unfold backListO
    show (List.range (q.backLength + 1)).map _ = _
    rw [List.range_succ, List.map_append]
    congr 1
    · apply List.map_congr_left
      intro i hi
      have hi2 : i < q.backLength := List.mem_range.mp hi
      show (q.back.set q.backTail (some v)).getD
          ((q.backHead + i) % (q.back.set q.backTail (some v)).length) none =
        q.back.getD ((q.backHead + i) % q.back.length) none
      rw [hbl, getD_set_formula]
      rw [if_neg]
      rintro ⟨hpe, -⟩
      rw [htl] at hpe
      exact absurd (offset_inj q.back.length q.backHead q.backLength i hlt (by omega) hpe)
        (by omega)
    · show [(q.back.set q.backTail (some v)).getD
          ((q.backHead + q.backLength) % (q.back.set q.backTail (some v)).length) none] = [some v]
      rw [hbl, getD_set_formula, if_pos]
      rw [htl]
      exact ⟨rfl, Nat.mod_lt _ hnpos⟩

theorem push_spec {α : Type} (q : FastQueue α) (v : α) (hwf : WF q) :
    WF (push q v) ∧ (push q v).front = q.front ∧
    backListO (push q v) = backListO q ++ [some v] := by
  by_cases hfull : q.backLength = q.back.length
  · obtain ⟨⟨k, hk4, hsz⟩, hle, hhd, htl⟩ := hwf
    have hshift : q.back.length <<< 1 = 2 ^ (k + 1) := by
      rw [Nat.shiftLeft_eq, hsz, pow_succ]
      ring
    have hlen : q.backLength < 2 ^ (k + 1) := by
      rw [hfull, hsz]
      exact Nat.pow_lt_pow_right (by norm_num) (by omega)
    obtain ⟨rwf, rfr, rbl, rsz, rln⟩ :=
      resize_spec q (k + 1) (by omega) ⟨⟨k, hk4, hsz⟩, hle, hhd, htl⟩ hlen
    have hlt : (resizeBack q (2 ^ (k + 1))).backLength <
        (resizeBack q (2 ^ (k + 1))).back.length := by
      rw [rsz, rln]
      exact hlen
    obtain ⟨mwf, mfr, mbl⟩ := push_main (resizeBack q (2 ^ (k + 1))) v rwf hlt
    rw [push_eq_full q v hfull, hshift]
    exact ⟨mwf, by rw [mfr, rfr], by rw [mbl, rbl]⟩
  · rw [push_eq_nonfull q v hfull]
    exact push_main q v hwf (lt_of_le_of_ne hwf.2.1 hfull)

def shiftCore {α : Type} (q : FastQueue α) : FastQueue α :=
  { q with
    back := q.back.set q.backHead none,
    backHead := (q.backHead + 1) &&& (q.back.length - 1),
    backLength := q.backLength - 1 }

theorem shiftCore_facts {α : Type} (q : FastQueue α) (hwf : WF q) (hpos : 0 < q.backLength) :
    WF (shiftCore q) ∧ (shiftCore q).front = q.front ∧
    backListO (shiftCore q) = (backListO q).tail ∧
    (shiftCore q).back.length = q.back.length ∧
    (shiftCore q).backLength = q.backLength - 1 := by
  obtain ⟨⟨k, hk4, hsz⟩, hle, hhd, htl⟩ := hwf
  have h16 : 16 ≤ q.back.length := size_ge_16 q k hk4 hsz
  have hnpos : 0 < q.back.length := by omega
  have hbl : (q.back.set q.backHead none).length = q.back.length := List.length_set _ _ _
  have hmask : (q.backHead + 1) &&& (q.back.length - 1) = (q.backHead + 1) % q.back.length := by
    rw [hsz, Nat.and_pow_two_sub_one_eq_mod]
  refine ⟨⟨⟨k, hk4, by rw [show (shiftCore q).back = q.back.set q.backHead none from rfl, hbl, hsz]⟩, ?_, ?_, ?_⟩, rfl, ?_, hbl, rfl⟩
  · show q.backLength - 1 ≤ (q.back.set q.backHead none).length
    rw [hbl]
    omega
  · show (q.backHead + 1) &&& (q.back.length - 1) < (q.back.set q.backHead none).length
    rw [hbl, hmask]
    exact Nat.mod_lt _ hnpos
  · show q.backTail =
      (((q.backHead + 1) &&& (q.back.length - 1)) + (q.backLength - 1)) %
        (q.back.set q.backHead none).length
    rw [hbl, hmask, Nat.mod_add_mod, htl]
    congr 1
    omega
  · unfold backListO
    show (List.range (q.backLength - 1)).map _ = ((List.range q.backLength).map _).tail
    have hlsplit : q.backLength = (q.backLength - 1) + 1 := by omega
    rw [hlsplit, List.range_succ_eq_map, List.map_cons, List.tail_cons, List.map_map]
    apply List.map_congr_left
    intro i hi
    have hi2 : i < q.backLength - 1 := List.mem_range.mp hi
    show (q.back.set q.backHead none).getD
        ((((q.backHead + 1) &&& (q.back.length - 1)) + i) % (q.back.set q.backHead none).length)
          none =
      q.back.getD ((q.backHead + Nat.succ i) % q.back.length) none
    rw [hbl, hmask, Nat.mod_add_mod, getD_set_formula, if_neg]
    · congr 2
      omega
    · rintro ⟨hpe, -⟩
      have hpe2 : (q.backHead + 0) % q.back.length = (q.backHead + (1 + i)) % q.back.length := by
        rw [Nat.add_zero, Nat.mod_eq_of_lt hhd]
        rw [Nat.add_assoc] at hpe
        exact hpe
      have := offset_inj q.back.length q.backHead 0 (1 + i) (by omega) (by omega) hpe2
      omega

theorem shiftTerminal_spec {α : Type} (qc : FastQueue α) (hwf1 : WF qc) (hfe1 : qc.front = []) :
    WF (if qc.backLength = 0 then { qc with backHead := 0, backTail := 0 }
        else if minBackCapacity < qc.back.length ∧ qc.backLength ≤ qc.back.length >>> 2 ∧
            minBackCapacity ≤ qc.backLength then
          resizeBack qc (qc.back.length >>> 1)
        else qc) ∧
    absList (if qc.backLength = 0 then { qc with backHead := 0, backTail := 0 }
        else if minBackCapacity < qc.back.length ∧ qc.backLength ≤ qc.back.length >>> 2 ∧
            minBackCapacity ≤ qc.backLength then
          resizeBack qc (qc.back.length >>> 1)
        else qc) = backListO qc := by
  have hwfc := hwf1
  obtain ⟨⟨k, hk4, hsz⟩, hle, hhd, htl⟩ := hwf1
  by_cases h1 : qc.backLength = 0
  · rw [if_pos h1]
    constructor
    · refine ⟨⟨k, hk4, hsz⟩, ?_, ?_, ?_⟩
      · show qc.backLength ≤ qc.back.length
        exact hle
      · show (0 : ℕ) < qc.back.length
        rw [hsz]
        positivity
      · show (0 : ℕ) = (0 + qc.backLength) % qc.back.length
        rw [h1]
        simp
    · unfold absList backListO
      rw [show ({ qc with backHead := 0, backTail := 0 } : FastQueue α).front = qc.front from rfl]
      rw [show ({ qc with backHead := 0, backTail := 0 } : FastQueue α).backLength = qc.backLength
        from rfl]
      rw [h1, hfe1]
      simp
  · by_cases h2 : minBackCapacity < qc.back.length ∧ qc.backLength ≤ qc.back.length >>> 2 ∧
        minBackCapacity ≤ qc.backLength
    · rw [if_neg h1, if_pos h2]
      have hmc : minBackCapacity = 16 := rfl
      rw [hmc] at h2
      have hk5 : 4 < k := by
        by_contra hcon
        push_neg at hcon
        have h24 : (2 : ℕ) ^ k ≤ 2 ^ 4 := Nat.pow_le_pow_right (by norm_num) hcon
        have hA2 := h2.1
        rw [hsz] at hA2
        norm_num at h24
        omega
      have hhalf : qc.back.length >>> 1 = 2 ^ (k - 1) := by
        rw [hsz, Nat.shiftRight_eq_div_pow, Nat.pow_div (by omega) (by norm_num)]
      have hq2 : qc.back.length >>> 2 = 2 ^ (k - 2) := by
        rw [hsz, Nat.shiftRight_eq_div_pow, Nat.pow_div (by omega) (by norm_num)]
      have hlenlt : qc.backLength < 2 ^ (k - 1) := by
        have h22 := h2.2.1
        rw [hq2] at h22
        have hp : (2 : ℕ) ^ (k - 2) < 2 ^ (k - 1) := Nat.pow_lt_pow_right (by norm_num) (by omega)
        omega
      rw [hhalf]
      obtain ⟨hwfR, hfrR, hblR, _, _⟩ := resize_spec qc (k - 1) (by omega) hwfc hlenlt
      refine ⟨hwfR, ?_⟩
      unfold absList
      rw [hfrR, hfe1, hblR]
      simp
    · rw [if_neg h1, if_neg h2]
      refine ⟨hwfc, ?_⟩
      unfold absList
      rw [hfe1]
      simp

theorem shift_spec {α : Type} (q : FastQueue α) (hwf : WF q) :
    WF (shift q).2 ∧ absList (shift q).2 = (absList q).tail ∧
    (shift q).1 = ((absList q).head?).getD none := by
  rcases hf : q.front.getLast? with _ | v
  · have hfe : q.front = [] := List.getLast?_eq_none_iff.mp hf
    by_cases h0 : q.backLength = 0
    · have hsq : shift q = (none, q) := by
        unfold shift
        rw [hf]
        dsimp only []
        rw [if_pos h0]
      have habs : absList q = [] := by
        simp [absList, backListO, hfe, h0]
      rw [hsq, habs]
      exact ⟨hwf, rfl, rfl⟩
    · have hpos : 0 < q.backLength := Nat.pos_of_ne_zero h0
      obtain ⟨hwf1, hfr1, hbl1, hsz1, hlen1⟩ := shiftCore_facts q hwf hpos
      obtain ⟨⟨k, hk4, hsz⟩, hle, hhd, htl⟩ := hwf
      have habs : absList q = backListO q := by
        simp [absList, hfe]
      have hq : q.backLength = (q.backLength - 1) + 1 := by omega
      have hhead : (backListO q).head? = some (q.back.getD q.backHead none) := by
        unfold backListO
        rw [hq, List.range_succ_eq_map]
        simp [Nat.mod_eq_of_lt hhd]
      have hshape : shift q =
          (if (shiftCore q).backLength = 0 then
            (q.back.getD q.backHead none, { shiftCore q with backHead := 0, backTail := 0 })
          else if minBackCapacity < (shiftCore q).back.length ∧
              (shiftCore q).backLength ≤ (shiftCore q).back.length >>> 2 ∧
              minBackCapacity ≤ (shiftCore q).backLength then
            (q.back.getD q.backHead none,
              resizeBack (shiftCore q) ((shiftCore q).back.length >>> 1))
          else (q.back.getD q.backHead none, shiftCore q)) := by
        unfold shift
        rw [hf]
        dsimp only []
        rw [if_neg h0]
        rfl
      have hsnd : (shift q).2 =
          (if (shiftCore q).backLength = 0 then
            { shiftCore q with backHead := 0, backTail := 0 }
          else if minBackCapacity < (shiftCore q).back.length ∧
              (shiftCore q).backLength ≤ (shiftCore q).back.length >>> 2 ∧
              minBackCapacity ≤ (shiftCore q).backLength then
            resizeBack (shiftCore q) ((shiftCore q).back.length >>> 1)
          else shiftCore q) := by
        rw [hshape]
        by_cases h1 : (shiftCore q).backLength = 0
        · rw [if_pos h1, if_pos h1]
        · rw [if_neg h1, if_neg h1]
          by_cases h2 : minBackCapacity < (shiftCore q).back.length ∧
              (shiftCore q).backLength ≤ (shiftCore q).back.length >>> 2 ∧
              minBackCapacity ≤ (shiftCore q).backLength
          · rw [if_pos h2, if_pos h2]
          · rw [if_neg h2, if_neg h2]
      have hfst : (shift q).1 = q.back.getD q.backHead none := by
        rw [hshape]
        by_cases h1 : (shiftCore q).backLength = 0
        · rw [if_pos h1]
        · rw [if_neg h1]
          by_cases h2 : minBackCapacity < (shiftCore q).back.length ∧
              (shiftCore q).backLength ≤ (shiftCore q).back.length >>> 2 ∧
              minBackCapacity ≤ (shiftCore q).backLength
          · rw [if_pos h2]
          · rw [if_neg h2]
      have hterm := shiftTerminal_spec (shiftCore q) hwf1 (hfr1.trans hfe)
      refine ⟨?_, ?_, ?_⟩
      · rw [hsnd]
        exact hterm.1
      · rw [hsnd, habs]
        exact hterm.2.trans hbl1
      · rw [hfst, habs, hhead]
        rfl
  · obtain ⟨l2, hl2⟩ := List.getLast?_eq_some_iff.mp hf
    have hsq : shift q = (some v, { q with front := q.front.dropLast }) := by
      unfold shift
      rw [hf]
    rw [hsq]
    refine ⟨hwf, ?_, ?_⟩
    · unfold absList
      rw [show ({ q with front := q.front.dropLast } : FastQueue α).front = q.front.dropLast
        from rfl]
      rw [show backListO ({ q with front := q.front.dropLast } : FastQueue α) = backListO q
        from rfl]
      rw [hl2, List.dropLast_concat, List.reverse_append]
      simp
    · unfold absList
      rw [hl2, List.reverse_append]
      simp

/-- The simulation relation: the ring is well-formed and the observable
contents are exactly the model list (every live slot holding a value). -/
def Rel {α : Type} (q : FastQueue α) (m : List α) : Prop :=
  WF q ∧ absList q = m.map some

theorem rel_mkEmpty (α : Type) : Rel (mkEmpty α) [] := by
  refine ⟨⟨⟨4, le_refl 4, ?_⟩, ?_, ?_, ?_⟩, ?_⟩
  · show (List.replicate minBackCapacity (none : Option α)).length = 2 ^ 4
    rw [List.length_replicate]
    rfl
  · show (0 : ℕ) ≤ (List.replicate minBackCapacity (none : Option α)).length
    exact Nat.zero_le _
  · show (0 : ℕ) < (List.replicate minBackCapacity (none : Option α)).length
    rw [List.length_replicate]
    norm_num [minBackCapacity]
  · show (0 : ℕ) = (0 + 0) % (List.replicate minBackCapacity (none : Option α)).length
    simp
  · show absList (mkEmpty α) = []
    simp [absList, backListO, mkEmpty]

theorem rel_push {α : Type} (q : FastQueue α) (m : List α) (v : α) (h : Rel q m) :
    Rel (push q v) (m ++ [v]) := by
  obtain ⟨hwf, habs⟩ := h
  obtain ⟨pwf, pfr, pbl⟩ := push_spec q v hwf
  refine ⟨pwf, ?_⟩
  unfold absList
  rw [pfr, pbl, List.map_append]
  unfold absList at habs
  rw [← List.append_assoc, habs]
  rfl

theorem rel_unshift {α : Type} (q : FastQueue α) (m : List α) (v : α) (h : Rel q m) :
    Rel (unshift q v) (v :: m) := by
  obtain ⟨hwf, habs⟩ := h
  refine ⟨hwf, ?_⟩
  unfold absList
  rw [show (unshift q v).front = q.front ++ [v] from rfl]
  rw [show backListO (unshift q v) = backListO q from rfl]
  rw [List.reverse_append, List.map_cons]
  unfold absList at habs
  simp only [List.reverse_cons, List.reverse_nil, List.nil_append, List.map_cons, List.map_nil,
    List.cons_append, List.nil_append]
  rw [habs]

theorem rel_shift {α : Type} (q : FastQueue α) (m : List α) (h : Rel q m) :
    Rel (shift q).2 m.tail ∧ (shift q).1 = m.head? := by
  obtain ⟨hwf, habs⟩ := h
  obtain ⟨swf, sabs, sfst⟩ := shift_spec q hwf
  refine ⟨⟨swf, ?_⟩, ?_⟩
  · rw [sabs, habs]
    cases m with
    | nil => rfl
    | cons a t => rfl
  · rw [sfst, habs]
    cases m with
    | nil => rfl
    | cons a t => rfl

theorem run_sim {α : Type} (ops : List (QOp α)) (q : FastQueue α) (m : List α)
    (h : Rel q m) :
    Rel (runQueue q ops).1 (specRun m ops).1 ∧ (runQueue q ops).2 = (specRun m ops).2 := by
  induction ops generalizing q m with
  | nil => exact ⟨h, rfl⟩
  | cons op rest ih =>
    cases op with
    | pushOp v =>
      exact ih (push q v) (m ++ [v]) (rel_push q m v h)
    | unshiftOp v =>
      exact ih (unshift q v) (v :: m) (rel_unshift q m v h)
    | shiftOp =>
      obtain ⟨hrel, hhd⟩ := rel_shift q m h
      obtain ⟨ih1, ih2⟩ := ih (shift q).2 m.tail hrel
      refine ⟨ih1, ?_⟩
      show (shift q).1 :: (runQueue (shift q).2 rest).2 = m.head? :: (specRun m.tail rest).2
      rw [hhd, ih2]

/-- C9: running any sequence of `push` (back), `unshift` (front), and `shift`
operations on a fresh `FastQueue` yields exactly the shift results of the
reference deque: front-inserted items come out before back items and in
reverse insertion order, back items in insertion order, `shift` on an empty
queue returns `none`, and the ordering survives every internal ring resize. -/
theorem fastQueue_observable_order {α : Type} (ops : List (QOp α)) :
    (runQueue (mkEmpty α) ops).2 = (specRun ([] : List α) ops).2 :=
  (run_sim ops (mkEmpty α) [] (rel_mkEmpty α)).2

end DiscordSB.Queue
